import Mathlib

/-!
# string-analyzer-service: the natural-language query parser

A shallow embedding of `src/utils/parseNaturalQuery.js` and of the controller
`getStringsNlp` in `src/controllers/string.controller.js`.

Conventions of the embedding.

* A JavaScript string is the list of its character codes (`JsString`).  The
  patterns of the program only name ASCII characters, `\w`, `\d`, `\s` and `\b`,
  so a character outside the Basic Multilingual Plane behaves the same whether
  it is counted as one code point or as two surrogate code units.
* A regular expression is a value of `Re`; `Re.run` is the backtracking matcher
  of ECMAScript (a matcher takes a match state and a continuation), so that the
  order of alternatives, greediness and the contents of the capture groups are
  those of the JavaScript engine.
* A finite number is the integer that it is equal to (`JsVal.num`); the program
  computes with no fraction.  Arithmetic is that of IEEE doubles: the result of
  `parseInt`, of `n + 1` and of `n - 1` is rounded to the nearest double
  (`toDouble`), which is the integer itself below `2 ^ 53` and `Infinity` from
  `2 ^ 1024 - 2 ^ 970` on.  The number `-0` is identified with `0`: the program
  cannot tell them apart.
-/

namespace StringAnalyzer

/-! ## Strings and character classes -/

/-- A JavaScript string, as the list of its character codes. -/
abbrev JsString := List Nat

/-- The codes of a Lean string literal. -/
def js (s : String) : JsString := s.data.map Char.toNat

/-- The class `\d`. -/
def isDigit (c : Nat) : Bool := 48 ≤ c && c ≤ 57

/-- The class `[a-z]`. -/
def isLower (c : Nat) : Bool := 97 ≤ c && c ≤ 122

/-- The class `[A-Z]`. -/
def isUpper (c : Nat) : Bool := 65 ≤ c && c ≤ 90

/-- The class `\w`, that is `[A-Za-z0-9_]`. -/
def isWord (c : Nat) : Bool := isLower c || isUpper c || isDigit c || c == 95

/-- The class `\s`: ECMAScript white space and line terminators.  `String.prototype.trim`
removes the same characters. -/
def isSpace (c : Nat) : Bool :=
  (9 ≤ c && c ≤ 13) || c == 32 || c == 160 || c == 5760 || (8192 ≤ c && c ≤ 8202) ||
    c == 8232 || c == 8233 || c == 8239 || c == 8287 || c == 12288 || c == 65279

/-- The lower-case form of one character (`String.prototype.toLowerCase`).  `A`..`Z` map to
`a`..`z`, and the capital letters of Latin-1 (U+00C0..U+00DE without the sign U+00D7) to the
letter 32 places further; the Kelvin sign U+212A maps to `k` and U+0130 to `i` followed by
U+0307: these two are the only characters outside ASCII whose lower-case form contains an
ASCII character.  Any other character is kept: if it has a lower-case form of its own, both
forms are outside ASCII and are not white space, and no pattern of the program tells one
such character from another. -/
def lowerChar (c : Nat) : List Nat :=
  if isUpper c then [c + 32]
  else if 192 ≤ c ∧ c ≤ 222 ∧ c ≠ 215 then [c + 32]
  else if c = 8490 then [107]
  else if c = 304 then [105, 775]
  else [c]

/-- The method `String.prototype.toLowerCase`. -/
def toLowerCase (s : JsString) : JsString := s.flatMap lowerChar

/-- Removes leading white space. -/
def trimStart : JsString → JsString
  | [] => []
  | c :: cs => if isSpace c then trimStart cs else c :: cs

/-- The method `String.prototype.trim`. -/
def trim (s : JsString) : JsString := (trimStart (trimStart s).reverse).reverse

/-! ## Regular expressions -/

/-- The regular expressions used by the program. -/
inductive Re where
  /-- the empty pattern -/
  | eps : Re
  /-- one character of a class (a literal character is the class of that character) -/
  | cls (p : Nat → Bool) : Re
  /-- the assertion `\b` -/
  | wordB : Re
  /-- the assertion `$` -/
  | eos : Re
  /-- concatenation -/
  | seq (a b : Re) : Re
  /-- alternation `a|b`, left alternative first -/
  | alt (a b : Re) : Re
  /-- greedy `a?` -/
  | opt (a : Re) : Re
  /-- greedy `a*` -/
  | star (a : Re) : Re
  /-- capture group number `i` -/
  | grp (i : Nat) (a : Re) : Re

/-- The capture groups of a match: the groups that took part in it, each with its text. -/
structure Caps where
  groups : List (Nat × JsString)
  deriving DecidableEq, Repr

/-- The text of capture group `i`, `none` when the group is `undefined`. -/
def Caps.get (c : Caps) (i : Nat) : Option JsString := c.groups.lookup i

/-- Stores the text of capture group `i`. -/
def Caps.set (c : Caps) (i : Nat) (v : JsString) : Caps :=
  ⟨(i, v) :: c.groups.filter (fun e => e.1 != i)⟩

/-- The state of a match: the character before the current position (needed by `\b`), the
input that is left, and the capture groups. -/
structure MatchState where
  prev : Option Nat
  rest : JsString
  caps : Caps
  deriving DecidableEq, Repr

/-- A continuation of the matcher. -/
abbrev Cont := MatchState → Option MatchState

/-- Is the character at this side of a position a word character (`IsWordChar`)? -/
def wordSide : Option Nat → Bool
  | none => false
  | some c => isWord c

/-- The assertion `\b` holds where exactly one side is a word character. -/
def atWordB (s : MatchState) : Bool := wordSide s.prev != wordSide s.rest.head?

/-- The text matched between two states, the second reached from the first. -/
def consumed (s t : MatchState) : JsString := s.rest.take (s.rest.length - t.rest.length)

/-- Stores capture group `i`. -/
def setCap (s : MatchState) (i : Nat) (v : JsString) : MatchState :=
  { s with caps := s.caps.set i v }

/-- The loop of `a*` (`RepeatMatcher`): one more iteration if it consumes input and the rest
of the pattern then matches, otherwise the rest of the pattern from here.  The first
argument bounds the number of iterations by the length of the input that is left. -/
def starLoop (m : MatchState → Cont → Option MatchState) :
    Nat → MatchState → Cont → Option MatchState
  | 0, s, k => k s
  | n + 1, s, k =>
    match m s (fun t => if t.rest.length < s.rest.length then starLoop m n t k else none) with
    | some r => some r
    | none => k s

/-- The backtracking matcher of ECMAScript: `r.run s k` matches `r` from state `s` and
continues with `k`; alternatives are tried in order and quantifiers are greedy. -/
def Re.run : Re → MatchState → Cont → Option MatchState
  | .eps, s, k => k s
  | .cls p, s, k =>
    match s.rest with
    | [] => none
    | c :: cs => if p c then k { s with prev := some c, rest := cs } else none
  | .wordB, s, k => if atWordB s then k s else none
  | .eos, s, k => if s.rest.isEmpty then k s else none
  | .seq a b, s, k => a.run s (fun t => b.run t k)
  | .alt a b, s, k =>
    match a.run s k with
    | some r => some r
    | none => b.run s k
  | .opt a, s, k =>
    match a.run s (fun t => if t.rest.length < s.rest.length then k t else none) with
    | some r => some r
    | none => k s
  | .star a, s, k => starLoop (fun t c => a.run t c) s.rest.length s k
  | .grp i a, s, k => a.run s (fun t => k (setCap t i (consumed s t)))

/-- No capture group is set. -/
def noCaps : Caps := ⟨[]⟩

/-- One attempt to match at a position (`RegExpBuiltinExec` at one index). -/
def matchAt (re : Re) (prev : Option Nat) (rest : JsString) : Option MatchState :=
  re.run ⟨prev, rest, noCaps⟩ some

/-- The leftmost match, scanning the start position from left to right
(`RegExp.prototype.exec` without the `g` flag, as used by `String.prototype.match`). -/
def execFrom (re : Re) : Option Nat → JsString → Option MatchState
  | prev, [] => matchAt re prev []
  | prev, c :: cs =>
    match matchAt re prev (c :: cs) with
    | some m => some m
    | none => execFrom re (some c) cs

/-- The method `RegExp.prototype.test` -/
def Re.test (re : Re) (s : JsString) : Bool := (execFrom re none s).isSome

/-- The method `String.prototype.match` for a pattern without the `g` flag: the capture groups
of the leftmost match. -/
def Re.firstMatch (re : Re) (s : JsString) : Option Caps :=
  (execFrom re none s).map MatchState.caps

/-- All successive matches (`String.prototype.matchAll`, and the `exec` loop of a `g`
pattern).  The first argument counts the characters still covered by the previous match:
the search resumes where that match ended, and one character further after an empty
match. -/
def matchAllAux (re : Re) : Nat → Option Nat → JsString → List Caps
  | 0, prev, [] =>
    match matchAt re prev [] with
    | some m => [m.caps]
    | none => []
  | _ + 1, _, [] => []
  | skip + 1, _, c :: cs => matchAllAux re skip (some c) cs
  | 0, prev, c :: cs =>
    match matchAt re prev (c :: cs) with
    | some m => m.caps :: matchAllAux re (cs.length - m.rest.length) (some c) cs
    | none => matchAllAux re 0 (some c) cs

/-- The capture groups of every match of a `g` pattern, from left to right. -/
def Re.matchAll (re : Re) (s : JsString) : List Caps :=
  matchAllAux re 0 none s

/-! ### Building patterns -/

/-- A literal character. -/
def Re.chr (c : Char) : Re := .cls (fun x => x == c.toNat)

/-- A literal text. -/
def Re.lit (s : String) : Re := s.data.foldr (fun c r => Re.seq (Re.chr c) r) Re.eps

/-- The concatenation of a list of patterns. -/
def Re.cat : List Re → Re
  | [] => .eps
  | [r] => r
  | r :: rs => .seq r (Re.cat rs)

/-- The alternation of a list of patterns, in order. -/
def Re.any : List Re → Re
  | [] => .cls (fun _ => false)
  | [r] => r
  | r :: rs => .alt r (Re.any rs)

/-- The alternation of literal texts, in order. -/
def Re.words (ws : List String) : Re := Re.any (ws.map Re.lit)

/-- Greedy `a+`. -/
def Re.plus (a : Re) : Re := .seq a (.star a)

/-- The pattern `\s+`. -/
def Re.sp : Re := Re.plus (.cls isSpace)

/-- The pattern `\w+`. -/
def Re.word : Re := Re.plus (.cls isWord)

/-- A literal character under the `i` flag: an ASCII letter matches in either case. -/
def Re.chrI (c : Char) : Re :=
  .cls (fun x => x == c.toNat || (isLower c.toNat && x + 32 == c.toNat))

/-- A literal text under the `i` flag. -/
def Re.litI (s : String) : Re := s.data.foldr (fun c r => Re.seq (Re.chrI c) r) Re.eps

/-- The alternation of literal texts under the `i` flag, in order. -/
def Re.wordsI (ws : List String) : Re := Re.any (ws.map Re.litI)

/-- The method `String.prototype.replace(re, "")` for a pattern without the `g` flag: the
leftmost match is removed. -/
def replaceFirst (re : Re) : Option Nat → JsString → JsString
  | _, [] => []
  | prev, c :: cs =>
    match matchAt re prev (c :: cs) with
    | some m => m.rest
    | none => c :: replaceFirst re (some c) cs

/-! ## Values -/

/-- The values that the numeric variables of the parser can hold. -/
inductive JsVal where
  /-- a finite number, equal to the integer `n` -/
  | num (n : Int) : JsVal
  /-- the number `Infinity` -/
  | inf : JsVal
  /-- the number `-Infinity` -/
  | negInf : JsVal
  /-- the number `NaN` -/
  | nan : JsVal
  /-- the function `Object`, which is what `numberWords["constructor"]` evaluates to -/
  | objectCtor : JsVal
  /-- the object `Object.prototype`, which is what `numberWords["__proto__"]` evaluates to -/
  | objectProto : JsVal
  deriving DecidableEq, Repr

/-- Truthiness of a value (`ToBoolean`): `0` and `NaN` are falsy, objects are truthy. -/
def JsVal.truthy : JsVal → Bool
  | .num n => n != 0
  | .inf => true
  | .negInf => true
  | .nan => false
  | .objectCtor => true
  | .objectProto => true

/-- The conversion `ToNumber`: the string form of either object is not a numeral. -/
def JsVal.toNumber : JsVal → JsVal
  | .num n => .num n
  | .inf => .inf
  | .negInf => .negInf
  | _ => .nan

/-- The number of low bits of `n` that the 53-bit significand of a double does not hold: the
number of times `n` is halved before it is below `2 ^ 53` (`fuel` bounds the count). -/
def droppedBits : Nat → Nat → Nat
  | 0, _ => 0
  | fuel + 1, n => if n < 9007199254740992 then 0 else droppedBits fuel (n / 2) + 1

/-- The natural number `n` rounded to 53 significant bits, to the nearest and to the even
significand when two are as near (`roundTiesToEven`). -/
def roundNat (n : Nat) : Nat :=
  let shift := droppedBits n n
  let q := n >>> shift
  let r := n - q <<< shift
  let ulp := 1 <<< shift
  if ulp < 2 * r ∨ (2 * r = ulp ∧ q % 2 = 1) then (q + 1) <<< shift else q <<< shift

/-- The Number value of the integer `z`: the nearest double, which is an infinity when the
rounded magnitude reaches `2 ^ 1024`. -/
def toDouble (z : Int) : JsVal :=
  let m := roundNat z.natAbs
  if m < 1 <<< 1024 then .num (if z < 0 then -(m : Int) else m)
  else if z < 0 then .negInf else .inf

/-- The expression `v + 1`, as an argument of `Math.max`.  For either object the sum is the
concatenation of the object's string form and `"1"`, which `Math.max` converts to `NaN`. -/
def JsVal.plusOne : JsVal → JsVal
  | .num n => toDouble (n + 1)
  | .inf => .inf
  | .negInf => .negInf
  | _ => .nan

/-- The expression `v - 1`. -/
def JsVal.minusOne : JsVal → JsVal
  | .num n => toDouble (n - 1)
  | .inf => .inf
  | .negInf => .negInf
  | _ => .nan

/-- The function `Math.max` of two arguments. -/
def mathMax (a b : JsVal) : JsVal :=
  match a.toNumber, b.toNumber with
  | .num x, .num y => .num (max x y)
  | .num _, .inf => .inf
  | .inf, .num _ => .inf
  | .inf, .inf => .inf
  | .negInf, .num y => .num y
  | .num x, .negInf => .num x
  | .negInf, .inf => .inf
  | .inf, .negInf => .inf
  | .negInf, .negInf => .negInf
  | _, _ => .nan

/-- The function `Math.min` of two arguments. -/
def mathMin (a b : JsVal) : JsVal :=
  match a.toNumber, b.toNumber with
  | .num x, .num y => .num (min x y)
  | .num x, .inf => .num x
  | .inf, .num y => .num y
  | .inf, .inf => .inf
  | .negInf, .num _ => .negInf
  | .num _, .negInf => .negInf
  | .negInf, .inf => .negInf
  | .inf, .negInf => .negInf
  | .negInf, .negInf => .negInf
  | _, _ => .nan

/-- The comparison `a < b`, with `none` for the undefined result (`IsLessThan`).  An object
is first converted to its string form: two strings are compared as strings, the string
form of `Object` starts with `f` and that of `Object.prototype` is `[object Object]`;
a string compared with a number is converted to `NaN`. -/
def jsLt : JsVal → JsVal → Option Bool
  | .num x, .num y => some (decide (x < y))
  | .num _, .inf => some true
  | .inf, .num _ => some false
  | .inf, .inf => some false
  | .negInf, .num _ => some true
  | .negInf, .inf => some true
  | .num _, .negInf => some false
  | .inf, .negInf => some false
  | .negInf, .negInf => some false
  | .objectCtor, .objectCtor => some false
  | .objectCtor, .objectProto => some false
  | .objectProto, .objectCtor => some true
  | .objectProto, .objectProto => some false
  | _, _ => none

/-- The operator `a >= b`: false when `a < b` is true or undefined. -/
def jsGe (a b : JsVal) : Bool := jsLt a b == some false

/-- The operator `a <= b`: false when `b < a` is true or undefined. -/
def jsLe (a b : JsVal) : Bool := jsLt b a == some false

/-- The operator `a > b`: true when `b < a` is true. -/
def jsGt (a b : JsVal) : Bool := jsLt b a == some true

/-- The expression `v || d` for a variable `v` that may be `undefined`. -/
def orDefault (v : Option JsVal) (d : JsVal) : JsVal :=
  match v with
  | some x => if x.truthy then x else d
  | none => d

/-! ## The number lexicon -/

/-- The table `numberWords`. -/
def numberWords : List (JsString × Int) :=
  [(js "one", 1), (js "single", 1), (js "double", 2), (js "triple", 3), (js "two", 2),
   (js "three", 3), (js "four", 4), (js "five", 5), (js "six", 6), (js "seven", 7),
   (js "eight", 8), (js "nine", 9), (js "ten", 10), (js "eleven", 11), (js "twelve", 12),
   (js "thirteen", 13), (js "fourteen", 14), (js "fifteen", 15), (js "sixteen", 16),
   (js "seventeen", 17), (js "eighteen", 18), (js "nineteen", 19), (js "twenty", 20)]

/-- The table `ordinalToIndex`. -/
def ordinalToIndex : List (JsString × Int) :=
  [(js "first", 1), (js "second", 2), (js "third", 3), (js "fourth", 4), (js "fifth", 5)]

/-- The property access `table[key]` on an object literal, `none` for `undefined`: an own
property, or else a property inherited from `Object.prototype`.  The key is always in lower
case where the parser uses this, and `constructor` and `__proto__` are the only inherited
names without an upper-case letter. -/
def getProp (table : List (JsString × Int)) (key : JsString) : Option JsVal :=
  match table.lookup key with
  | some n => some (.num n)
  | none =>
    if key = js "constructor" then some .objectCtor
    else if key = js "__proto__" then some .objectProto
    else none

/-- The value of a run of decimal digits read from the left, given the value so far. -/
def digitsValue : Nat → JsString → Nat
  | acc, [] => acc
  | acc, c :: cs => if isDigit c then digitsValue (acc * 10 + (c - 48)) cs else acc

/-- The function `parseInt(s, 10)`, `none` for `NaN`: leading white space is skipped, a sign
is read, and the longest run of decimal digits gives the value, which is returned as a
Number, that is rounded to the nearest double. -/
def parseInt (s : JsString) : Option JsVal :=
  match trimStart s with
  | [] => none
  | c :: cs =>
    let body := if c = 43 ∨ c = 45 then cs else c :: cs
    match body with
    | [] => none
    | d :: ds =>
      if isDigit d then
        some (toDouble
          (if c = 45 then -(digitsValue 0 (d :: ds) : Int) else (digitsValue 0 (d :: ds) : Int)))
      else none

/-- The pattern `/(?:st|nd|rd|th)$/`. -/
def ordinalSuffixRe : Re := .seq (Re.words ["st", "nd", "rd", "th"]) .eos

/-- The function `extractNumber`, applied to a capture group (`none` is `undefined`); the
result `none` is `null`. -/
def extractNumber (str : Option JsString) : Option JsVal :=
  match str with
  | none => none
  | some s =>
    if s = [] then none
    else
      let clean := replaceFirst ordinalSuffixRe none (toLowerCase s)
      match parseInt clean with
      | some n => some n
      | none =>
        match getProp numberWords clean with
        | some v => if v.truthy then some v else none
        | none => none

/-! ## The patterns of `parseNaturalQuery` -/

/-- The pattern `/[a-z0-9\s]/`. -/
def validCharRe : Re := .cls (fun c => isLower c || isDigit c || isSpace c)

/-- The pattern
`/\b(non[-\s]?palindromic|not\s+(?:a\s+)?palindrome|isn['']?t\s+(?:a\s+)?palindrome|aren't?\s+palindromes?)\b/`. -/
def negPalindromeRe : Re :=
  Re.cat [.wordB,
    .grp 1 (Re.any [
      Re.cat [Re.lit "non", .opt (.cls (fun c => c == 45 || isSpace c)), Re.lit "palindromic"],
      Re.cat [Re.lit "not", Re.sp, .opt (.seq (Re.lit "a") Re.sp), Re.lit "palindrome"],
      Re.cat [Re.lit "isn", .opt (.cls (fun c => c == 39)), Re.lit "t", Re.sp,
        .opt (.seq (Re.lit "a") Re.sp), Re.lit "palindrome"],
      Re.cat [Re.lit "aren'", .opt (Re.lit "t"), Re.sp, Re.lit "palindrome",
        .opt (Re.lit "s")]]),
    .wordB]

/-- The pattern `/\b(palindromic|palindrome|are\s+palindrome|is\s+a\s+palindrome)\b/`. -/
def posPalindromeRe : Re :=
  Re.cat [.wordB,
    .grp 1 (Re.any [Re.lit "palindromic", Re.lit "palindrome",
      Re.cat [Re.lit "are", Re.sp, Re.lit "palindrome"],
      Re.cat [Re.lit "is", Re.sp, Re.lit "a", Re.sp, Re.lit "palindrome"]]),
    .wordB]

/-- The pattern
`/\b(?:all\s+)?(one|single|double|triple|two|three|four|five|six|seven|eight|nine|ten)(?:\s+\w+)*\s+(?:word|string|text)s?\b/`. -/
def wordCountRe : Re :=
  Re.cat [.wordB, .opt (.seq (Re.lit "all") Re.sp),
    .grp 1 (Re.words ["one", "single", "double", "triple", "two", "three", "four", "five",
      "six", "seven", "eight", "nine", "ten"]),
    .star (.seq Re.sp Re.word), Re.sp, Re.words ["word", "string", "text"],
    .opt (Re.lit "s"), .wordB]

/-- The tail `\s+(?:word(?:s)?\s+)?(?:than\s+)?(\w+)` shared by the two comparative
patterns. -/
def comparativeTail : Re :=
  Re.cat [Re.sp, .opt (Re.cat [Re.lit "word", .opt (Re.lit "s"), Re.sp]),
    .opt (.seq (Re.lit "than") Re.sp), .grp 1 Re.word]

/-- The pattern
`/\b(?:longer|greater|more|exceeding|beyond|higher|over|above)\s+(?:word(?:s)?\s+)?(?:than\s+)?(\w+)/g`. -/
def longerRe : Re :=
  Re.cat [.wordB,
    Re.words ["longer", "greater", "more", "exceeding", "beyond", "higher", "over", "above"],
    comparativeTail]

/-- The pattern
`/\b(?:shorter|less|fewer|below|under|not\s+up\s+to)\s+(?:word(?:s)?\s+)?(?:than\s+)?(\w+)/g`. -/
def shorterRe : Re :=
  Re.cat [.wordB,
    Re.any [Re.lit "shorter", Re.lit "less", Re.lit "fewer", Re.lit "below", Re.lit "under",
      Re.cat [Re.lit "not", Re.sp, Re.lit "up", Re.sp, Re.lit "to"]],
    comparativeTail]

/-- The pattern `/\b(?:between|from)\s+(\w+)\s+(?:and|to)\s+(\w+)/g`. -/
def betweenRe : Re :=
  Re.cat [.wordB, Re.words ["between", "from"], Re.sp, .grp 1 Re.word, Re.sp,
    Re.words ["and", "to"], Re.sp, .grp 2 Re.word]

/-- The pattern `/\b(?:at\s+least|min(?:imum)?)\s+(\w+)/g`. -/
def atLeastRe : Re :=
  Re.cat [.wordB,
    Re.any [Re.cat [Re.lit "at", Re.sp, Re.lit "least"],
      .seq (Re.lit "min") (.opt (Re.lit "imum"))],
    Re.sp, .grp 1 Re.word]

/-- The pattern `/\b(?:at\s+most|max(?:imum)?)\s+(\w+)/g`. -/
def atMostRe : Re :=
  Re.cat [.wordB,
    Re.any [Re.cat [Re.lit "at", Re.sp, Re.lit "most"],
      .seq (Re.lit "max") (.opt (Re.lit "imum"))],
    Re.sp, .grp 1 Re.word]

/-- The pattern `ordinalRe`, with the flags `gi`:
`(?:contain(?:s|ing)?|include(?:s|ing)?|has|with|having|that\s+contain(?:s|ing)?|that\s+has)?\s*(?:the\s+)?(first|second|third|fourth|fifth|\d+)(?:st|nd|rd|th)?\s+(vowel|consonant|letter)(?:\s+of(?:\s+the)?\s+(word|alphabet))?`. -/
def ordinalRe : Re :=
  Re.cat [
    .opt (Re.any [
      .seq (Re.litI "contain") (.opt (Re.wordsI ["s", "ing"])),
      .seq (Re.litI "include") (.opt (Re.wordsI ["s", "ing"])),
      Re.litI "has", Re.litI "with", Re.litI "having",
      Re.cat [Re.litI "that", Re.sp, Re.litI "contain", .opt (Re.wordsI ["s", "ing"])],
      Re.cat [Re.litI "that", Re.sp, Re.litI "has"]]),
    .star (.cls isSpace),
    .opt (.seq (Re.litI "the") Re.sp),
    .grp 1 (Re.any [Re.litI "first", Re.litI "second", Re.litI "third", Re.litI "fourth",
      Re.litI "fifth", Re.plus (.cls isDigit)]),
    .opt (Re.wordsI ["st", "nd", "rd", "th"]),
    Re.sp,
    .grp 2 (Re.wordsI ["vowel", "consonant", "letter"]),
    .opt (Re.cat [Re.sp, Re.litI "of", .opt (.seq Re.sp (Re.litI "the")), Re.sp,
      .grp 3 (Re.wordsI ["word", "alphabet"])])]

/-- The pattern
`/\b(?:contain(?:s|ing)?|include(?:s|ing)?|has|with|having)\s+(?:the\s+)?(?:letter\s+)?([a-z])\b/g`. -/
def containsRe : Re :=
  Re.cat [.wordB,
    Re.any [.seq (Re.lit "contain") (.opt (Re.words ["s", "ing"])),
      .seq (Re.lit "include") (.opt (Re.words ["s", "ing"])),
      Re.lit "has", Re.lit "with", Re.lit "having"],
    Re.sp, .opt (.seq (Re.lit "the") Re.sp), .opt (.seq (Re.lit "letter") Re.sp),
    .grp 1 (.cls isLower), .wordB]

/-- The pattern
`/\b(?:does\s+not|doesn['']?t|without|excluding|not)\b\s*(?:contain|include|have)\b/`. -/
def negContainsRe : Re :=
  Re.cat [.wordB,
    Re.any [Re.cat [Re.lit "does", Re.sp, Re.lit "not"],
      Re.cat [Re.lit "doesn", .opt (.cls (fun c => c == 39)), Re.lit "t"],
      Re.lit "without", Re.lit "excluding", Re.lit "not"],
    .wordB, .star (.cls isSpace), Re.words ["contain", "include", "have"], .wordB]

/-! ## The parser -/

/-- The object `filters` (the `parsed_filters` of a result): a field is `none` when the
key is absent.  The parser assigns no other key. -/
structure Filters where
  is_palindrome : Option Bool
  word_count : Option JsVal
  min_length : Option JsVal
  max_length : Option JsVal
  contains_character : Option JsString
  deriving DecidableEq, Repr

/-- The object `{}`. -/
def Filters.empty : Filters := ⟨none, none, none, none, none⟩

/-- The two errors thrown by the parser. -/
inductive ParseError where
  /-- "Unable to parse natural language query" -/
  | unparseable : ParseError
  /-- "Query parsed but resulted in conflicting filters" -/
  | conflicting : ParseError
  deriving DecidableEq, Repr

/-- The field `status` of a thrown error. -/
def ParseError.status : ParseError → Nat
  | .unparseable => 400
  | .conflicting => 422

deriving instance DecidableEq for Except

/-- The argument of `parseNaturalQuery`: a string, or any other value (`undefined`, `null`,
a number, an object). -/
inductive JsInput where
  | str (s : JsString) : JsInput
  | other : JsInput

/-- Step 1, the palindrome cues: the negative pattern first, then the affirmative pattern,
which sets the field only if it is still `undefined`. -/
def palindromeStage (text : JsString) (f : Filters) : Filters :=
  let f1 := if negPalindromeRe.test text then { f with is_palindrome := some false } else f
  if posPalindromeRe.test text then
    if f1.is_palindrome = none then { f1 with is_palindrome := some true } else f1
  else f1

/-- Step 2, the word count: the first match of the pattern, if its group 1 is a non-empty
string that `extractNumber` maps to a truthy value. -/
def wordCountStage (text : JsString) (f : Filters) : Filters :=
  match wordCountRe.firstMatch text with
  | none => f
  | some m =>
    match m.get 1 with
    | none => f
    | some w =>
      if w = [] then f
      else
        match extractNumber (some w) with
        | some n => if n.truthy then { f with word_count := some n } else f
        | none => f

/-- The loop over `longerMatches`: `minLength = Math.max(minLength || 0, n + 1)`. -/
def longerLoop (ms : List Caps) (minLength : Option JsVal) : Option JsVal :=
  ms.foldl (fun acc m =>
    match extractNumber (m.get 1) with
    | some n => some (mathMax (orDefault acc (.num 0)) n.plusOne)
    | none => acc) minLength

/-- The loop over `shorterMatches`: `maxLength = Math.min(maxLength || Infinity, n - 1)`. -/
def shorterLoop (ms : List Caps) (maxLength : Option JsVal) : Option JsVal :=
  ms.foldl (fun acc m =>
    match extractNumber (m.get 1) with
    | some n => some (mathMin (orDefault acc .inf) n.minusOne)
    | none => acc) maxLength

/-- The loop over `betweenMatches`, on the pair `(minLength, maxLength)`: an unresolved
token throws the 400 error, `mn >= mx` throws the 422 error, otherwise both variables are
overwritten. -/
def betweenLoop : List Caps → Option JsVal × Option JsVal →
    Except ParseError (Option JsVal × Option JsVal)
  | [], acc => .ok acc
  | m :: ms, _ =>
    match extractNumber (m.get 1), extractNumber (m.get 2) with
    | some mn, some mx =>
      if jsGe mn mx then .error .conflicting else betweenLoop ms (some mn, some mx)
    | _, _ => .error .unparseable

/-- The loop over `atLeastMatches`: `minLength = Math.max(minLength || 0, n)`. -/
def atLeastLoop (ms : List Caps) (minLength : Option JsVal) : Option JsVal :=
  ms.foldl (fun acc m =>
    match extractNumber (m.get 1) with
    | some n => some (mathMax (orDefault acc (.num 0)) n)
    | none => acc) minLength

/-- The loop over `atMostMatches`: `maxLength = Math.min(maxLength || Infinity, n)`. -/
def atMostLoop (ms : List Caps) (maxLength : Option JsVal) : Option JsVal :=
  ms.foldl (fun acc m =>
    match extractNumber (m.get 1) with
    | some n => some (mathMin (orDefault acc .inf) n)
    | none => acc) maxLength

/-- The five loops of step 3 on the variables `minLength` and `maxLength`, both `undefined`
at the start. -/
def lengthBounds (text : JsString) : Except ParseError (Option JsVal × Option JsVal) :=
  let minLength := longerLoop (longerRe.matchAll text) none
  let maxLength := shorterLoop (shorterRe.matchAll text) none
  match betweenLoop (betweenRe.matchAll text) (minLength, maxLength) with
  | .error e => .error e
  | .ok (mn, mx) =>
    .ok (atLeastLoop (atLeastRe.matchAll text) mn, atMostLoop (atMostRe.matchAll text) mx)

/-- The end of step 3: `min_length` is stored unless `undefined`, `max_length` unless
`undefined` or `Infinity`. -/
def storeBounds (f : Filters) (b : Option JsVal × Option JsVal) : Filters :=
  let f1 := match b.1 with
    | some v => { f with min_length := some v }
    | none => f
  match b.2 with
  | some v => if v = .inf then f1 else { f1 with max_length := some v }
  | none => f1

/-- Step 3, the length bounds. -/
def lengthStage (text : JsString) (f : Filters) : Except ParseError Filters :=
  match lengthBounds text with
  | .error e => .error e
  | .ok b => .ok (storeBounds f b)

/-- The table `vowels`. -/
def vowels : List JsString := [js "a", js "e", js "i", js "o", js "u"]

/-- The table `consonants`. -/
def consonants : List JsString := (js "bcdfghjklmnpqrstvwxyz").map (fun c => [c])

/-- The table `alphabet`. -/
def alphabet : List JsString := (js "abcdefghijklmnopqrstuvwxyz").map (fun c => [c])

/-- The test `idx !== null && idx >= 1 && idx <= table.length` followed by the access
`table[idx - 1]`; `none` when the test fails. -/
def tableAt (table : List JsString) (idx : Option JsVal) : Option JsString :=
  match idx with
  | some v =>
    if jsGe v (.num 1) && jsLe v (.num table.length) then
      match v with
      | .num n => table.get? (n - 1).toNat
      | _ => none
    else none
  | none => none

/-- The expression `extractNumber(ord) || ordinalToIndex[ord.toLowerCase()] || null`. -/
def ordinalNumber (ord : JsString) : Option JsVal :=
  match extractNumber (some ord) with
  | some v => if v.truthy then some v else
    match getProp ordinalToIndex (toLowerCase ord) with
    | some w => if w.truthy then some w else none
    | none => none
  | none =>
    match getProp ordinalToIndex (toLowerCase ord) with
    | some w => if w.truthy then some w else none
    | none => none

/-- The body of step 4 for the last match of `ordinalRe`, with groups `ord`, `kind` and
`ofTarget`. -/
def ordinalResolve (f : Filters) (ord kind : JsString) (ofTarget : Option JsString) :
    Except ParseError Filters :=
  let ordNum := ordinalNumber ord
  if kind = js "letter" ∧ ofTarget = some (js "alphabet") then
    match tableAt alphabet ordNum with
    | some ch => .ok { f with contains_character := some ch }
    | none => .error .unparseable
  else if kind = js "vowel" then
    if ofTarget = some (js "alphabet") then
      match tableAt vowels ordNum with
      | some ch => .ok { f with contains_character := some ch }
      | none => .error .unparseable
    else
      match tableAt vowels ordNum with
      | some ch => .ok { f with contains_character := some ch }
      | none => .ok f
  else if kind = js "consonant" then
    if ofTarget = some (js "alphabet") then
      match tableAt consonants ordNum with
      | some ch => .ok { f with contains_character := some ch }
      | none => .error .unparseable
    else
      match tableAt consonants ordNum with
      | some ch => .ok { f with contains_character := some ch }
      | none => .ok f
  else .ok f

/-- Step 4, the ordinal vowel, consonant or letter: only the last match of `ordinalRe` is
used.  Groups 1 and 2 take part in every match (`ordinalRe_groups`), so the last branch is
never taken; and no match is empty (`ordinalRe_reach`), so the `exec` loop of the source
collects the same matches as `matchAll`. -/
def ordinalStage (text : JsString) (f : Filters) : Except ParseError Filters :=
  match (ordinalRe.matchAll text).getLast? with
  | none => .ok f
  | some last =>
    match last.get 1, last.get 2 with
    | some ord, some kind => ordinalResolve f ord kind (last.get 3)
    | _, _ => .ok f

/-- Step 5, the generic "contains" phrase, skipped when `contains_character` is already set
to a non-empty string: group 1 of the last match. -/
def containsStage (text : JsString) (f : Filters) : Filters :=
  if f.contains_character = none ∨ f.contains_character = some [] then
    match (containsRe.matchAll text).getLast? with
    | none => f
    | some last =>
      match last.get 1 with
      | some ch => if ch = [] then f else { f with contains_character := some ch }
      | none => f
  else f

/-- Step 7, the final validation: an empty object throws the 400 error, `min_length >
max_length` the 422 error. -/
def validate (f : Filters) : Except ParseError Filters :=
  if f = Filters.empty then .error .unparseable
  else
    match f.min_length, f.max_length with
    | some mn, some mx => if jsGt mn mx then .error .conflicting else .ok f
    | _, _ => .ok f

/-- Steps 1 to 5 on the normalized text: the filters collected by the matcher stages, or the
error thrown by one of them. -/
def collect (normalized : JsString) : Except ParseError Filters :=
  let f1 := palindromeStage normalized Filters.empty
  let f2 := wordCountStage normalized f1
  match lengthStage normalized f2 with
  | .error e => .error e
  | .ok f3 =>
    match ordinalStage normalized f3 with
    | .error e => .error e
    | .ok f4 => .ok (containsStage normalized f4)

/-- Steps 1 to 6 on the normalized text: the filters accumulated when the final validation
is reached, or the error thrown before it.  Step 6 throws the 422 error when the negative
"contains" pattern matches. -/
def accumulate (normalized : JsString) : Except ParseError Filters :=
  match collect normalized with
  | .error e => .error e
  | .ok f => if negContainsRe.test normalized then .error .conflicting else .ok f

/-- The text `query.toLowerCase().trim()`. -/
def normalize (query : JsString) : JsString := trim (toLowerCase query)

/-- The value returned by `parseNaturalQuery`: an object with the single key
`parsed_filters`. -/
structure ParseResult where
  parsed_filters : Filters
  deriving DecidableEq, Repr

/-- The function `parseNaturalQuery`; a thrown error is an `Except.error`. -/
def parseNaturalQuery (query : JsInput) : Except ParseError ParseResult :=
  match query with
  | .other => .error .unparseable
  | .str q =>
    if q = [] then .error .unparseable
    else
      let normalized := normalize q
      if !validCharRe.test normalized then .error .unparseable
      else
        match accumulate normalized with
        | .error e => .error e
        | .ok f =>
          match validate f with
          | .error e => .error e
          | .ok g => .ok ⟨g⟩

/-- The function `parseNaturalQuery` on a string literal. -/
def parse (q : String) : Except ParseError ParseResult := parseNaturalQuery (.str (js q))

/-! ## The controller `getStringsNlp` -/

/-- The request parameter `req.query.query`: absent, a string, or an array or object built
by the query-string parser (which has no method `trim`). -/
inductive QueryParam where
  | absent : QueryParam
  | str (s : JsString) : QueryParam
  | other : QueryParam

/-- The condition on `properties.length` in the storage filter. -/
structure LengthCond where
  gte : Option JsVal
  lte : Option JsVal
  deriving DecidableEq, Repr

/-- The object `mongoFilter`: the keys `properties.is_palindrome`, `properties.word_count`,
`properties.length` and `value` (the source of a case-insensitive `RegExp`). -/
structure MongoFilter where
  is_palindrome : Option Bool
  word_count : Option JsVal
  length : Option LengthCond
  value : Option JsString
  deriving DecidableEq, Repr

/-- An error caught by the `catch` block of the controller: its `name` and the value of
`error.status || error.statusCode`. -/
structure Thrown where
  name : String
  status : Option Nat
  deriving DecidableEq, Repr

/-- The response of the controller: a status with a message, or the status 200 with `data`,
`count` and `interpreted_query` (its `original` and `parsed_filters`). -/
inductive Response (Doc : Type) where
  | message (status : Nat) (text : String) : Response Doc
  | success (data : List Doc) (count : Nat) (original : JsString) (parsed_filters : Filters) :
      Response Doc
  deriving DecidableEq, Repr

/-- Truthiness of a numeric field that may be absent. -/
def truthyVal : Option JsVal → Bool
  | some v => v.truthy
  | none => false

/-- Truthiness of a string field that may be absent: the empty string is falsy. -/
def truthyStr : Option JsString → Bool
  | some s => !s.isEmpty
  | none => false

/-- The replacement `char.replace(/[.*+?^${}()|[\]\\]/g, '\\$&')`: a backslash before each
special character. -/
def escapeRegExp (s : JsString) : JsString :=
  s.flatMap (fun c =>
    if c ∈ [46, 42, 43, 63, 94, 36, 123, 125, 40, 41, 124, 91, 93, 92] then [92, c] else [c])

/-- The construction of `mongoFilter` from `parsed_filters`: a key is written when the
field is truthy (`is_palindrome`: when it is not `undefined`). -/
def buildMongoFilter (pf : Filters) : MongoFilter :=
  { is_palindrome := pf.is_palindrome
    word_count := if truthyVal pf.word_count then pf.word_count else none
    length :=
      if truthyVal pf.min_length || truthyVal pf.max_length then
        some { gte := if truthyVal pf.min_length then pf.min_length else none
               lte := if truthyVal pf.max_length then pf.max_length else none }
      else none
    value :=
      if truthyStr pf.contains_character then pf.contains_character.map escapeRegExp
      else none }

/-- The `catch` block of the controller. -/
def onError {Doc : Type} (e : Thrown) : Response Doc :=
  if e.name = "ValidationError" then .message 400 "Invalid query parameter values or types"
  else if e.status = some 400 then .message 400 "Unable to parse natural language query"
  else if e.status = some 422 then
    .message 422 "Query parsed but resulted in conflicting filters"
  else .message 500 "Internal server error"

/-- The controller `getStringsNlp`.  The storage call `StringAnalysis.find(mongoFilter)` is
the parameter `find`, which returns the documents or the error it rejects with.  The test
`!result || !result.parsed_filters` is left out: a returned `result` is an object whose
`parsed_filters` is an object, and both are truthy. -/
def getStringsNlp {Doc : Type} (find : MongoFilter → Except Thrown (List Doc))
    (param : QueryParam) : Response Doc :=
  match param with
  | .absent => .message 400 "Missing query parameter"
  | .other => onError ⟨"TypeError", none⟩
  | .str raw =>
    let query := trim raw
    if query = [] then .message 400 "Missing query parameter"
    else
      match parseNaturalQuery (.str query) with
      | .error e => onError ⟨"Error", some e.status⟩
      | .ok result =>
        let pf := result.parsed_filters
        if truthyVal pf.min_length && truthyVal pf.max_length &&
            (match pf.min_length, pf.max_length with
              | some mn, some mx => jsGt mn mx
              | _, _ => false) then
          .message 422 "Query parsed but resulted in conflicting filters"
        else
          match find (buildMongoFilter pf) with
          | .error e => onError e
          | .ok data => .success data data.length query pf

/-! ## The declarative reading of a pattern -/

/-- The states that a match of a pattern can reach from a state: `Reach r s t` holds when
`r` can match from `s` and end in `t`. -/
def Reach : Re → MatchState → MatchState → Prop
  | .eps, s, t => t = s
  | .cls p, s, t =>
    ∃ c cs, s.rest = c :: cs ∧ p c = true ∧ t = { s with prev := some c, rest := cs }
  | .wordB, s, t => atWordB s = true ∧ t = s
  | .eos, s, t => s.rest = [] ∧ t = s
  | .seq a b, s, t => ∃ u, Reach a s u ∧ Reach b u t
  | .alt a b, s, t => Reach a s t ∨ Reach b s t
  | .opt a, s, t => Reach a s t ∨ t = s
  | .star a, s, t => Relation.ReflTransGen (Reach a) s t
  | .grp i a, s, t => ∃ u, Reach a s u ∧ t = setCap u i (consumed s u)

/-- Every match of the pattern starts by reading a character of the class `p`. -/
def HeadIn (p : Nat → Bool) (r : Re) : Prop :=
  ∀ s t, Reach r s t → ∃ c cs, s.rest = c :: cs ∧ p c = true

/-- Is the pattern free of capture groups? -/
def Re.groupFree : Re → Bool
  | .seq a b => a.groupFree && b.groupFree
  | .alt a b => a.groupFree && b.groupFree
  | .opt a => a.groupFree
  | .star a => a.groupFree
  | .grp _ _ => false
  | _ => true

/-- The number words of the word-count pattern. -/
def countWords : List String :=
  ["one", "single", "double", "triple", "two", "three", "four", "five", "six", "seven",
    "eight", "nine", "ten"]

/-- The number `n` written in decimal digits, as a JavaScript string (`String(n)`). -/
def decimal (n : Nat) : JsString := js (toString n)

/-- The ordinal suffixes that `extractNumber` strips. -/
def ordinalSuffixes : List String := ["st", "nd", "rd", "th"]

/-- A number that is not negative: `Infinity`, or a finite number `k` with `0 ≤ k`. -/
def JsVal.isNonNeg : JsVal → Bool
  | .num n => decide (0 ≤ n)
  | .inf => true
  | _ => false

/-- The capital letters of ASCII and of Latin-1. -/
def capitalLetters : JsString :=
  js "ABCDEFGHIJKLMNOPQRSTUVWXYZÀÁÂÃÄÅÆÇÈÉÊËÌÍÎÏÐÑÒÓÔÕÖØÙÚÛÜÝÞ"

/-- The small letters, in the order of `capitalLetters`. -/
def smallLetters : JsString :=
  js "abcdefghijklmnopqrstuvwxyzàáâãäåæçèéêëìíîïðñòóôõöøùúûüýþ"

/-- The small letter of a capital letter; any other character is left as it is. -/
def smallLetter (c : Nat) : Nat := ((capitalLetters.zip smallLetters).lookup c).getD c

/-- A text in lower case: every capital letter is replaced by its small letter.  Two texts
differ by the case of their letters only when they are the same in lower case. -/
def lowercased (s : JsString) : JsString := s.map smallLetter

/-- A text without the white space at its two ends. -/
def trimmed (s : JsString) : JsString :=
  ((s.dropWhile isSpace).reverse.dropWhile isSpace).reverse

/-! ## The pipeline: what a successful parse went through -/

theorem validate_ok {f g : Filters} (h : validate f = .ok g) :
    g = f ∧ f ≠ Filters.empty ∧
      ∀ mn mx, f.min_length = some mn → f.max_length = some mx → jsGt mn mx = false := by
  unfold validate at h
  split at h
  · cases h
  · rename_i hne
    split at h
    · rename_i mn mx hmn hmx
      split at h
      · cases h
      · rename_i hgt
        cases h
        refine ⟨rfl, hne, ?_⟩
        intro a b ha hb
        rw [hmn] at ha; rw [hmx] at hb
        cases ha; cases hb
        simpa using hgt
    · rename_i hno
      cases h
      refine ⟨rfl, hne, ?_⟩
      intro a b ha hb
      exact absurd hb (by intro hb; exact hno a b ha hb)

theorem accumulate_ok {t : JsString} {f : Filters} (h : accumulate t = .ok f) :
    collect t = .ok f ∧ negContainsRe.test t = false := by
  unfold accumulate at h
  split at h
  · cases h
  · rename_i g hg
    split at h
    · cases h
    · rename_i hn
      cases h
      exact ⟨hg, by simpa using hn⟩

theorem parseNaturalQuery_ok {q : JsInput} {r : ParseResult} (h : parseNaturalQuery q = .ok r) :
    ∃ s, q = .str s ∧ s ≠ [] ∧ validCharRe.test (normalize s) = true ∧
      collect (normalize s) = .ok r.parsed_filters ∧
      negContainsRe.test (normalize s) = false ∧
      validate r.parsed_filters = .ok r.parsed_filters := by
  unfold parseNaturalQuery at h
  split at h
  · cases h
  · rename_i s
    split at h
    · cases h
    · rename_i hs
      simp only at h
      split at h
      · cases h
      · rename_i hv
        split at h
        · cases h
        · rename_i f hf
          split at h
          · cases h
          · rename_i g hg
            cases h
            obtain ⟨hgf, -, -⟩ := validate_ok hg
            subst hgf
            obtain ⟨hc, hn⟩ := accumulate_ok hf
            exact ⟨s, rfl, hs, by simpa using hv, hc, hn, hg⟩

theorem palindromeStage_is_palindrome (t : JsString) :
    (palindromeStage t Filters.empty).is_palindrome =
      if negPalindromeRe.test t then some false
      else if posPalindromeRe.test t then some true else none := by
  unfold palindromeStage
  by_cases hn : negPalindromeRe.test t <;> by_cases hp : posPalindromeRe.test t <;>
    simp [hn, hp, Filters.empty]

theorem palindromeStage_others (t : JsString) (f : Filters) :
    (palindromeStage t f).word_count = f.word_count ∧
      (palindromeStage t f).min_length = f.min_length ∧
      (palindromeStage t f).max_length = f.max_length ∧
      (palindromeStage t f).contains_character = f.contains_character := by
  unfold palindromeStage
  by_cases hn : negPalindromeRe.test t <;> by_cases hp : posPalindromeRe.test t <;>
    by_cases hf : f.is_palindrome = none <;> simp [hn, hp, hf]

theorem wordCountStage_others (t : JsString) (f : Filters) :
    (wordCountStage t f).is_palindrome = f.is_palindrome ∧
      (wordCountStage t f).min_length = f.min_length ∧
      (wordCountStage t f).max_length = f.max_length ∧
      (wordCountStage t f).contains_character = f.contains_character := by
  unfold wordCountStage
  repeat' split
  all_goals simp

theorem storeBounds_others (f : Filters) (b : Option JsVal × Option JsVal) :
    (storeBounds f b).is_palindrome = f.is_palindrome ∧
      (storeBounds f b).word_count = f.word_count ∧
      (storeBounds f b).contains_character = f.contains_character := by
  unfold storeBounds
  repeat' split
  all_goals simp

theorem storeBounds_bounds (f : Filters) (b : Option JsVal × Option JsVal)
    (hmin : f.min_length = none) (hmax : f.max_length = none) :
    (storeBounds f b).min_length = b.1 ∧
      (storeBounds f b).max_length = if b.2 = some .inf then none else b.2 := by
  obtain ⟨b1, b2⟩ := b
  unfold storeBounds
  cases b1 <;> cases b2 <;> simp [hmin, hmax]
  all_goals split <;> simp_all

theorem ordinalResolve_others {f g : Filters} {ord kind : JsString} {tgt : Option JsString}
    (h : ordinalResolve f ord kind tgt = .ok g) :
    g.is_palindrome = f.is_palindrome ∧ g.word_count = f.word_count ∧
      g.min_length = f.min_length ∧ g.max_length = f.max_length := by
  unfold ordinalResolve at h
  simp only at h
  repeat' split at h
  all_goals cases h
  all_goals simp

theorem ordinalStage_others {t : JsString} {f g : Filters} (h : ordinalStage t f = .ok g) :
    g.is_palindrome = f.is_palindrome ∧ g.word_count = f.word_count ∧
      g.min_length = f.min_length ∧ g.max_length = f.max_length := by
  unfold ordinalStage at h
  split at h
  · cases h; simp
  · split at h
    · exact ordinalResolve_others h
    · cases h; simp

theorem containsStage_others (t : JsString) (f : Filters) :
    (containsStage t f).is_palindrome = f.is_palindrome ∧
      (containsStage t f).word_count = f.word_count ∧
      (containsStage t f).min_length = f.min_length ∧
      (containsStage t f).max_length = f.max_length := by
  unfold containsStage
  repeat' split
  all_goals simp

/-- The fields of the filters collected by steps 1 to 5. -/
theorem collect_ok {t : JsString} {f : Filters} (h : collect t = .ok f) :
    ∃ b, lengthBounds t = .ok b ∧
      f.is_palindrome = (palindromeStage t Filters.empty).is_palindrome ∧
      f.word_count = (wordCountStage t (palindromeStage t Filters.empty)).word_count ∧
      f.min_length = b.1 ∧
      f.max_length = (if b.2 = some .inf then none else b.2) ∧
      ∃ f3 f4, f3.contains_character = none ∧ ordinalStage t f3 = .ok f4 ∧
        f = containsStage t f4 := by
  unfold collect at h
  simp only at h
  split at h
  · cases h
  · rename_i f3 h3
    split at h
    · cases h
    · rename_i f4 h4
      cases h
      unfold lengthStage at h3
      split at h3
      · cases h3
      · rename_i b hb
        cases h3
        have hp := palindromeStage_others t Filters.empty
        have hw := wordCountStage_others t (palindromeStage t Filters.empty)
        have hs := storeBounds_others (wordCountStage t (palindromeStage t Filters.empty)) b
        have hsb := storeBounds_bounds (wordCountStage t (palindromeStage t Filters.empty)) b
          (by rw [hw.2.1, hp.2.1]; rfl) (by rw [hw.2.2.1, hp.2.2.1]; rfl)
        have ho := ordinalStage_others h4
        have hc := containsStage_others t f4
        refine ⟨b, hb, ?_, ?_, ?_, ?_, _, f4, ?_, h4, rfl⟩
        · rw [hc.1, ho.1, hs.1, hw.1]
        · rw [hc.2.1, ho.2.1, hs.2.1]
        · rw [hc.2.2.1, ho.2.2.1, hsb.1]
        · rw [hc.2.2.2, ho.2.2.2, hsb.2]
        · rw [hs.2.2, hw.2.2.2, hp.2.2.2]; rfl

/-! ## The matcher is sound for the declarative reading -/

theorem starLoop_sound (m : MatchState → Cont → Option MatchState)
    (R : MatchState → MatchState → Prop)
    (hm : ∀ s k res, m s k = some res → ∃ t, R s t ∧ k t = some res) :
    ∀ n s k res, starLoop m n s k = some res →
      ∃ t, Relation.ReflTransGen R s t ∧ k t = some res := by
  intro n
  induction n with
  | zero => intro s k res h; exact ⟨s, Relation.ReflTransGen.refl, h⟩
  | succ n ih =>
    intro s k res h
    simp only [starLoop] at h
    split at h
    · rename_i r hr
      obtain ⟨t, hst, hk⟩ := hm _ _ _ hr
      split at hk
      · obtain ⟨u, htu, hu⟩ := ih _ _ _ hk
        cases h
        exact ⟨u, Relation.ReflTransGen.head hst htu, hu⟩
      · cases hk
    · exact ⟨s, Relation.ReflTransGen.refl, h⟩

theorem run_sound (r : Re) :
    ∀ s k res, r.run s k = some res → ∃ t, Reach r s t ∧ k t = some res := by
  induction r with
  | eps => intro s k res h; exact ⟨s, rfl, h⟩
  | cls p =>
    intro s k res h
    simp only [Re.run] at h
    split at h
    · cases h
    · rename_i c cs hrest
      split at h
      · rename_i hp
        exact ⟨_, ⟨c, cs, hrest, hp, rfl⟩, h⟩
      · cases h
  | wordB =>
    intro s k res h
    simp only [Re.run] at h
    split at h
    · rename_i hb; exact ⟨s, ⟨hb, rfl⟩, h⟩
    · cases h
  | eos =>
    intro s k res h
    simp only [Re.run] at h
    split at h
    · rename_i hb; exact ⟨s, ⟨List.isEmpty_iff.mp hb, rfl⟩, h⟩
    · cases h
  | seq a b iha ihb =>
    intro s k res h
    simp only [Re.run] at h
    obtain ⟨u, hsu, hu⟩ := iha _ _ _ h
    obtain ⟨t, hut, ht⟩ := ihb _ _ _ hu
    exact ⟨t, ⟨u, hsu, hut⟩, ht⟩
  | alt a b iha ihb =>
    intro s k res h
    simp only [Re.run] at h
    split at h
    · rename_i r hr
      cases h
      obtain ⟨t, hst, ht⟩ := iha _ _ _ hr
      exact ⟨t, Or.inl hst, ht⟩
    · obtain ⟨t, hst, ht⟩ := ihb _ _ _ h
      exact ⟨t, Or.inr hst, ht⟩
  | opt a iha =>
    intro s k res h
    simp only [Re.run] at h
    split at h
    · rename_i r hr
      cases h
      obtain ⟨t, hst, ht⟩ := iha _ _ _ hr
      split at ht
      · exact ⟨t, Or.inl hst, ht⟩
      · cases ht
    · exact ⟨s, Or.inr rfl, h⟩
  | star a iha =>
    intro s k res h
    simp only [Re.run] at h
    exact starLoop_sound _ (Reach a) iha _ _ _ _ h
  | grp i a iha =>
    intro s k res h
    simp only [Re.run] at h
    obtain ⟨t, hst, ht⟩ := iha _ _ _ h
    exact ⟨_, ⟨t, hst, rfl⟩, ht⟩

/-- A match found at a position is a match in the declarative reading. -/
theorem matchAt_reach {re : Re} {prev : Option Nat} {s : JsString} {m : MatchState}
    (h : matchAt re prev s = some m) : Reach re ⟨prev, s, noCaps⟩ m := by
  obtain ⟨t, ht, hk⟩ := run_sound re _ _ _ h
  cases hk
  exact ht

/-- The leftmost match starts at some position of the text. -/
theorem execFrom_some {re : Re} {s : JsString} :
    ∀ {prev : Option Nat} {m : MatchState}, execFrom re prev s = some m →
      ∃ p pre suf, s = pre ++ suf ∧ matchAt re p suf = some m := by
  induction s with
  | nil => intro prev m h; exact ⟨prev, [], [], rfl, h⟩
  | cons c cs ih =>
    intro prev m h
    simp only [execFrom] at h
    split at h
    · rename_i r hr
      cases h
      exact ⟨prev, [], c :: cs, rfl, hr⟩
    · obtain ⟨p, pre, suf, hs, hm⟩ := ih h
      exact ⟨p, c :: pre, suf, by rw [hs]; rfl, hm⟩

/-- Every match of a `g` pattern starts at some position of the text. -/
theorem matchAllAux_mem {re : Re} {s : JsString} :
    ∀ {k : Nat} {prev : Option Nat} {c : Caps}, c ∈ matchAllAux re k prev s →
      ∃ p pre suf m, s = pre ++ suf ∧ matchAt re p suf = some m ∧ m.caps = c := by
  induction s with
  | nil =>
    intro k prev c h
    cases k with
    | zero =>
      simp only [matchAllAux] at h
      split at h
      · rename_i m hm
        simp only [List.mem_singleton] at h
        exact ⟨prev, [], [], m, rfl, hm, h.symm⟩
      · cases h
    | succ k => simp [matchAllAux] at h
  | cons x xs ih =>
    intro k prev c h
    cases k with
    | zero =>
      simp only [matchAllAux] at h
      split at h
      · rename_i m hm
        rcases List.mem_cons.mp h with h | h
        · exact ⟨prev, [], x :: xs, m, rfl, hm, h.symm⟩
        · obtain ⟨p, pre, suf, m', hs, hm', hc⟩ := ih h
          exact ⟨p, x :: pre, suf, m', by rw [hs]; rfl, hm', hc⟩
      · obtain ⟨p, pre, suf, m', hs, hm', hc⟩ := ih h
        exact ⟨p, x :: pre, suf, m', by rw [hs]; rfl, hm', hc⟩
    | succ k =>
      simp only [matchAllAux] at h
      obtain ⟨p, pre, suf, m', hs, hm', hc⟩ := ih h
      exact ⟨p, x :: pre, suf, m', by rw [hs]; rfl, hm', hc⟩

/-! ### The first character of a match -/

theorem headIn_cls {p q : Nat → Bool} (h : ∀ c, q c = true → p c = true) :
    HeadIn p (.cls q) := by
  intro s t hr
  obtain ⟨c, cs, hs, hq, -⟩ := hr
  exact ⟨c, cs, hs, h c hq⟩

theorem headIn_seq {p : Nat → Bool} {a : Re} (b : Re) (h : HeadIn p a) :
    HeadIn p (.seq a b) := by
  intro s t hr
  obtain ⟨u, hu, -⟩ := hr
  exact h s u hu

theorem headIn_wordB_seq {p : Nat → Bool} {b : Re} (h : HeadIn p b) :
    HeadIn p (.seq .wordB b) := by
  intro s t hr
  obtain ⟨u, ⟨-, hu⟩, hb⟩ := hr
  subst hu
  exact h _ t hb

theorem headIn_alt {p : Nat → Bool} {a b : Re} (ha : HeadIn p a) (hb : HeadIn p b) :
    HeadIn p (.alt a b) := by
  intro s t hr
  rcases hr with hr | hr
  · exact ha s t hr
  · exact hb s t hr

theorem headIn_grp {p : Nat → Bool} {a : Re} (i : Nat) (h : HeadIn p a) :
    HeadIn p (.grp i a) := by
  intro s t hr
  obtain ⟨u, hu, -⟩ := hr
  exact h s u hu

theorem headIn_lit {p : Nat → Bool} (w : String) (c : Char) (l : List Char)
    (hw : w.data = c :: l) (hp : p c.toNat = true) : HeadIn p (Re.lit w) := by
  intro s t hr
  unfold Re.lit at hr
  rw [hw] at hr
  simp only [List.foldr] at hr
  obtain ⟨u, ⟨x, xs, hs, hx, -⟩, -⟩ := hr
  simp only [beq_iff_eq] at hx
  subst hx
  exact ⟨_, xs, hs, hp⟩

theorem headIn_negContainsRe : HeadIn isLower negContainsRe := by
  unfold negContainsRe
  simp only [Re.cat, Re.any, Re.words, List.map]
  apply headIn_wordB_seq
  apply headIn_seq
  repeat' apply headIn_alt
  all_goals first
    | exact headIn_lit _ _ _ rfl (by decide)
    | exact headIn_seq _ (headIn_lit _ _ _ rfl (by decide))

theorem headIn_betweenRe : HeadIn isLower betweenRe := by
  unfold betweenRe
  simp only [Re.cat, Re.any, Re.words, List.map]
  apply headIn_wordB_seq
  apply headIn_seq
  repeat' apply headIn_alt
  all_goals exact headIn_lit _ _ _ rfl (by decide)

/-- The sanity check `/[a-z0-9\s]/.test` succeeds on a text with a lower-case letter. -/
theorem validCharRe_test_of_lower :
    ∀ (pre : JsString) (prev : Option Nat) (c : Nat) (cs : JsString), isLower c = true →
      (execFrom validCharRe prev (pre ++ c :: cs)).isSome = true := by
  intro pre
  induction pre with
  | nil =>
    intro prev c cs hc
    simp [execFrom, matchAt, validCharRe, Re.run, hc]
  | cons x xs ih =>
    intro prev c cs hc
    simp only [List.cons_append, execFrom]
    split
    · rfl
    · exact ih _ c cs hc

/-- A text in which a pattern that starts with a lower-case letter matches passes the sanity
check, and is not empty. -/
theorem valid_of_matchAt {re : Re} (hre : HeadIn isLower re) {p : Option Nat}
    {pre suf : JsString} {m : MatchState} (h : matchAt re p suf = some m) :
    validCharRe.test (pre ++ suf) = true ∧ pre ++ suf ≠ [] := by
  obtain ⟨c, cs, hs, hc⟩ := hre _ _ (matchAt_reach h)
  simp only at hs
  subst hs
  exact ⟨validCharRe_test_of_lower pre none c cs hc, by simp⟩

theorem normalize_nil : normalize [] = [] := by decide

theorem valid_of_test {re : Re} (hre : HeadIn isLower re) {t : JsString}
    (h : re.test t = true) : validCharRe.test t = true ∧ t ≠ [] := by
  unfold Re.test at h
  obtain ⟨m, hm⟩ := Option.isSome_iff_exists.mp h
  obtain ⟨p, pre, suf, hs, hp⟩ := execFrom_some hm
  rw [hs]
  exact valid_of_matchAt hre hp

theorem valid_of_matchAll {re : Re} (hre : HeadIn isLower re) {t : JsString} {c : Caps}
    (h : c ∈ re.matchAll t) : validCharRe.test t = true ∧ t ≠ [] := by
  obtain ⟨p, pre, suf, m, hs, hp, -⟩ := matchAllAux_mem h
  rw [hs]
  exact valid_of_matchAt hre hp

/-- Past the two checks at its start, `parseNaturalQuery` is the accumulation of steps 1 to 6
followed by the final validation. -/
theorem parseNaturalQuery_eq {q : JsString} (hne : normalize q ≠ [])
    (hv : validCharRe.test (normalize q) = true) :
    parseNaturalQuery (.str q) =
      match accumulate (normalize q) with
      | .error e => .error e
      | .ok f =>
        match validate f with
        | .error e => .error e
        | .ok g => .ok ⟨g⟩ := by
  have hq : q ≠ [] := by
    intro hq
    rw [hq] at hne
    exact hne normalize_nil
  simp [parseNaturalQuery, hq, hv]

/-! ### The contents of a capture group -/

theorem Caps.get_set (c : Caps) (i : Nat) (v : JsString) : (c.set i v).get i = some v := by
  simp [Caps.get, Caps.set, List.lookup]

theorem reach_seq_right {a b : Re} {s t : MatchState} (h : Reach (.seq a b) s t) :
    ∃ u, Reach b u t := by
  obtain ⟨u, -, hu⟩ := h
  exact ⟨u, hu⟩

/-- A group around one character of a class, followed by `\b`, holds that character. -/
theorem reach_grp_cls_wordB {i : Nat} {p : Nat → Bool} {s t : MatchState}
    (h : Reach (.seq (.grp i (.cls p)) .wordB) s t) :
    ∃ c, t.caps.get i = some [c] ∧ p c = true := by
  obtain ⟨u, ⟨v, ⟨c, cs, hs, hp, hv⟩, hu⟩, -, ht⟩ := h
  refine ⟨c, ?_, hp⟩
  subst ht hu hv
  simp [setCap, consumed, hs, Caps.get_set]

/-- Group 1 of a match of the generic "contains" pattern is one lower-case letter. -/
theorem containsRe_group (t : JsString) (m : Caps) (ch : JsString)
    (hm : m ∈ containsRe.matchAll t) (hch : m.get 1 = some ch) :
    ∃ c, ch = [c] ∧ isLower c = true := by
  obtain ⟨p, pre, suf, st, -, hst, hc⟩ := matchAllAux_mem hm
  have hr := matchAt_reach hst
  unfold containsRe at hr
  simp only [Re.cat] at hr
  obtain ⟨u1, hr⟩ := reach_seq_right hr
  obtain ⟨u2, hr⟩ := reach_seq_right hr
  obtain ⟨u3, hr⟩ := reach_seq_right hr
  obtain ⟨u4, hr⟩ := reach_seq_right hr
  obtain ⟨u5, hr⟩ := reach_seq_right hr
  obtain ⟨c, hget, hp⟩ := reach_grp_cls_wordB hr
  rw [hc, hch] at hget
  cases hget
  exact ⟨c, rfl, hp⟩

theorem tableAt_mem {table : List JsString} {idx : Option JsVal} {ch : JsString}
    (h : tableAt table idx = some ch) : ch ∈ table := by
  unfold tableAt at h
  split at h
  · split at h
    · split at h
      · exact List.get?_mem h
      · cases h
    · cases h
  · cases h

theorem tables_letters :
    ∀ table ∈ [alphabet, vowels, consonants], ∀ ch ∈ table,
      ch.length = 1 ∧ ∀ c ∈ ch, isLower c = true := by
  decide

theorem table_letter {table : List JsString} (ht : table ∈ [alphabet, vowels, consonants])
    {idx : Option JsVal} {ch : JsString} (h : tableAt table idx = some ch) :
    ∃ c, ch = [c] ∧ isLower c = true := by
  obtain ⟨hl, hc⟩ := tables_letters table ht ch (tableAt_mem h)
  match ch, hl, hc with
  | [c], _, hc => exact ⟨c, rfl, hc c (List.mem_singleton.mpr rfl)⟩

theorem ordinalResolve_char {f g : Filters} {ord kind : JsString} {tgt : Option JsString}
    (h : ordinalResolve f ord kind tgt = .ok g) :
    g.contains_character = f.contains_character ∨
      ∃ ch c, g.contains_character = some ch ∧ ch = [c] ∧ isLower c = true := by
  unfold ordinalResolve at h
  simp only at h
  split at h
  · split at h
    · rename_i ch hch
      cases h
      obtain ⟨c, hc⟩ := table_letter (by simp) hch
      exact Or.inr ⟨ch, c, rfl, hc⟩
    · cases h
  · split at h
    · split at h
      · split at h
        · rename_i ch hch
          cases h
          obtain ⟨c, hc⟩ := table_letter (by simp) hch
          exact Or.inr ⟨ch, c, rfl, hc⟩
        · cases h
      · split at h
        · rename_i ch hch
          cases h
          obtain ⟨c, hc⟩ := table_letter (by simp) hch
          exact Or.inr ⟨ch, c, rfl, hc⟩
        · cases h
          exact Or.inl rfl
    · split at h
      · split at h
        · split at h
          · rename_i ch hch
            cases h
            obtain ⟨c, hc⟩ := table_letter (by simp) hch
            exact Or.inr ⟨ch, c, rfl, hc⟩
          · cases h
        · split at h
          · rename_i ch hch
            cases h
            obtain ⟨c, hc⟩ := table_letter (by simp) hch
            exact Or.inr ⟨ch, c, rfl, hc⟩
          · cases h
            exact Or.inl rfl
      · cases h
        exact Or.inl rfl

theorem ordinalStage_char {t : JsString} {f g : Filters} (h : ordinalStage t f = .ok g) :
    g.contains_character = f.contains_character ∨
      ∃ ch c, g.contains_character = some ch ∧ ch = [c] ∧ isLower c = true := by
  unfold ordinalStage at h
  split at h
  · cases h; exact Or.inl rfl
  · split at h
    · exact ordinalResolve_char h
    · cases h; exact Or.inl rfl

theorem containsStage_char (t : JsString) (f : Filters) :
    (containsStage t f).contains_character = f.contains_character ∨
      ∃ ch c, (containsStage t f).contains_character = some ch ∧ ch = [c] ∧
        isLower c = true := by
  unfold containsStage
  split
  · split
    · exact Or.inl rfl
    · rename_i last hlast
      split
      · rename_i ch hch
        split
        · exact Or.inl rfl
        · obtain ⟨c, hc⟩ :=
            containsRe_group t last ch (List.mem_of_getLast?_eq_some hlast) hch
          exact Or.inr ⟨ch, c, rfl, hc⟩
      · exact Or.inl rfl
  · exact Or.inl rfl

/-! ### The loops of the length step -/

/-- After the "between" loop over a non-empty list of matches, the two variables hold the
numbers of the last match, and every match passed the test `mn >= mx`. -/
theorem betweenLoop_last :
    ∀ (ms : List Caps) (acc b : Option JsVal × Option JsVal) (last : Caps),
      betweenLoop ms acc = .ok b → ms.getLast? = some last →
      ∃ mn mx, extractNumber (last.get 1) = some mn ∧ extractNumber (last.get 2) = some mx ∧
        jsGe mn mx = false ∧ b = (some mn, some mx) := by
  intro ms
  induction ms with
  | nil => intro acc b last _ hl; cases hl
  | cons m ms ih =>
    intro acc b last hb hl
    unfold betweenLoop at hb
    split at hb
    · rename_i mn mx h1 h2
      split at hb
      · cases hb
      · rename_i hge
        cases ms with
        | nil =>
          simp only [List.getLast?_singleton, Option.some.injEq] at hl
          subst hl
          simp only [betweenLoop] at hb
          cases hb
          exact ⟨mn, mx, h1, h2, by simpa using hge, rfl⟩
        | cons m' ms' =>
          rw [List.getLast?_cons_cons] at hl
          exact ih _ b last hb hl
    · cases hb

theorem atLeastLoop_unresolved (ms : List Caps) (acc : Option JsVal)
    (h : ∀ m ∈ ms, extractNumber (m.get 1) = none) : atLeastLoop ms acc = acc := by
  unfold atLeastLoop
  induction ms generalizing acc with
  | nil => rfl
  | cons m ms ih =>
    simp only [List.foldl_cons, h m (List.mem_cons_self _ _)]
    exact ih acc (fun x hx => h x (List.mem_cons_of_mem _ hx))

theorem atMostLoop_unresolved (ms : List Caps) (acc : Option JsVal)
    (h : ∀ m ∈ ms, extractNumber (m.get 1) = none) : atMostLoop ms acc = acc := by
  unfold atMostLoop
  induction ms generalizing acc with
  | nil => rfl
  | cons m ms ih =>
    simp only [List.foldl_cons, h m (List.mem_cons_self _ _)]
    exact ih acc (fun x hx => h x (List.mem_cons_of_mem _ hx))

/-! ### The controller -/

theorem onError_ne_success {Doc : Type} (e : Thrown) (data : List Doc) (count : Nat)
    (original : JsString) (pf : Filters) :
    (onError e : Response Doc) ≠ .success data count original pf := by
  unfold onError
  repeat' split
  all_goals simp

/-- The second check of the controller never fires on the filters returned by the parser. -/
theorem controller_check_false {q : JsInput} {r : ParseResult}
    (h : parseNaturalQuery q = .ok r) :
    (truthyVal r.parsed_filters.min_length && truthyVal r.parsed_filters.max_length &&
      (match r.parsed_filters.min_length, r.parsed_filters.max_length with
        | some mn, some mx => jsGt mn mx
        | _, _ => false)) = false := by
  obtain ⟨s, -, -, -, -, -, hv⟩ := parseNaturalQuery_ok h
  obtain ⟨-, -, hgt⟩ := validate_ok hv
  cases hmn : r.parsed_filters.min_length with
  | none => simp [truthyVal]
  | some mn =>
    cases hmx : r.parsed_filters.max_length with
    | none => simp [truthyVal]
    | some mx => simp [hgt mn mx hmn hmx]

/-! ### The bound of the star loop is never reached -/

/-- A matcher only calls its continuation on states where no more input is left than at its
start: two continuations that agree on these states give the same result. -/
theorem starLoop_agree (m : MatchState → Cont → Option MatchState)
    (hm : ∀ (s : MatchState) (k k' : Cont),
      (∀ t : MatchState, t.rest.length ≤ s.rest.length → k t = k' t) → m s k = m s k') :
    ∀ (n : Nat) (s : MatchState) (k k' : Cont),
      (∀ t : MatchState, t.rest.length ≤ s.rest.length → k t = k' t) →
      starLoop m n s k = starLoop m n s k' := by
  intro n
  induction n with
  | zero => intro s k k' h; exact h s (Nat.le_refl _)
  | succ n ih =>
    intro s k k' h
    simp only [starLoop]
    rw [h s (Nat.le_refl _)]
    have : m s (fun t => if t.rest.length < s.rest.length then starLoop m n t k else none) =
        m s (fun t => if t.rest.length < s.rest.length then starLoop m n t k' else none) := by
      apply hm
      intro t ht
      split
      · apply ih
        intro u hu
        exact h u (Nat.le_trans hu ht)
      · rfl
    rw [this]

theorem run_agree (r : Re) :
    ∀ (s : MatchState) (k k' : Cont),
      (∀ t : MatchState, t.rest.length ≤ s.rest.length → k t = k' t) →
      r.run s k = r.run s k' := by
  induction r with
  | eps => intro s k k' h; exact h s (Nat.le_refl _)
  | cls p =>
    intro s k k' h
    simp only [Re.run]
    split
    · rfl
    · rename_i c cs hs
      split
      · apply h
        simp [hs]
      · rfl
  | wordB =>
    intro s k k' h
    simp only [Re.run]
    split
    · exact h s (Nat.le_refl _)
    · rfl
  | eos =>
    intro s k k' h
    simp only [Re.run]
    split
    · exact h s (Nat.le_refl _)
    · rfl
  | seq a b iha ihb =>
    intro s k k' h
    simp only [Re.run]
    apply iha
    intro t ht
    apply ihb
    intro u hu
    exact h u (Nat.le_trans hu ht)
  | alt a b iha ihb =>
    intro s k k' h
    simp only [Re.run]
    rw [iha s k k' h, ihb s k k' h]
  | opt a iha =>
    intro s k k' h
    simp only [Re.run]
    rw [h s (Nat.le_refl _)]
    have : a.run s (fun t => if t.rest.length < s.rest.length then k t else none) =
        a.run s (fun t => if t.rest.length < s.rest.length then k' t else none) := by
      apply iha
      intro t ht
      simp only [h t ht]
    rw [this]
  | star a iha =>
    intro s k k' h
    simp only [Re.run]
    exact starLoop_agree _ (fun s k k' h => iha s k k' h) _ s k k' h
  | grp i a iha =>
    intro s k k' h
    simp only [Re.run]
    apply iha
    intro t ht
    exact h _ ht

theorem run_fail (r : Re) (s : MatchState) : r.run s (fun _ => none) = none := by
  cases h : r.run s (fun _ => none) with
  | none => rfl
  | some res =>
    obtain ⟨t, -, ht⟩ := run_sound r _ _ _ h
    cases ht

/-- One more unit of fuel does not change the star loop once the fuel covers the input that
is left. -/
theorem starLoop_fuel (a : Re) :
    ∀ (n : Nat) (s : MatchState) (k : Cont), s.rest.length ≤ n →
      starLoop (fun t c => a.run t c) (n + 1) s k = starLoop (fun t c => a.run t c) n s k := by
  intro n
  induction n with
  | zero =>
    intro s k hs
    have h0 : s.rest.length = 0 := Nat.le_zero.mp hs
    simp only [starLoop, h0, Nat.not_lt_zero, if_false]
    rw [run_fail]
  | succ n ih =>
    intro s k hs
    rw [starLoop]
    conv => rhs; rw [starLoop]
    have : a.run s (fun t =>
          if t.rest.length < s.rest.length then starLoop (fun t c => a.run t c) (n + 1) t k
          else none) =
        a.run s (fun t =>
          if t.rest.length < s.rest.length then starLoop (fun t c => a.run t c) n t k
          else none) := by
      apply run_agree
      intro t _
      split
      · rename_i hlt
        exact ih t k (by omega)
      · rfl
    simp only [this]

theorem starLoop_enough (a : Re) (s : MatchState) (k : Cont) :
    ∀ n, s.rest.length ≤ n →
      starLoop (fun t c => a.run t c) n s k =
        starLoop (fun t c => a.run t c) s.rest.length s k := by
  intro n hn
  induction n with
  | zero =>
    have h0 : s.rest.length = 0 := Nat.le_zero.mp hn
    rw [h0]
  | succ n ih =>
    by_cases h : s.rest.length ≤ n
    · rw [starLoop_fuel a n s k h, ih h]
    · have : s.rest.length = n + 1 := by omega
      rw [this]

/-- The matcher of `a*` satisfies the recursive equation of the ECMAScript `RepeatMatcher`:
one more iteration of `a` that consumes input, followed by `a*` again, or else the
continuation.  The bound on the iterations in `starLoop` is therefore never the reason for
which a match is missed. -/
theorem run_star_unfold (a : Re) (s : MatchState) (k : Cont) :
    (Re.star a).run s k =
      match a.run s (fun t =>
        if t.rest.length < s.rest.length then (Re.star a).run t k else none) with
      | some r => some r
      | none => k s := by
  simp only [Re.run]
  cases hn : s.rest.length with
  | zero =>
    simp only [starLoop, Nat.not_lt_zero, if_false]
    rw [run_fail]
  | succ n =>
    rw [starLoop]
    have : a.run s (fun t =>
          if t.rest.length < s.rest.length then starLoop (fun t c => a.run t c) n t k
          else none) =
        a.run s (fun t =>
          if t.rest.length < n + 1 then
            starLoop (fun t c => a.run t c) t.rest.length t k
          else none) := by
      apply run_agree
      intro t _
      rw [hn]
      split
      · rename_i hlt
        exact starLoop_enough a t k n (by omega)
      · rfl
    rw [this]

/-! ### The bounds of a successful parse, when they are numbers -/

/-- When steps 1 to 6 leave two bounds with `min_length > max_length`, the final validation
throws the conflicting-filters error. -/
theorem validate_conflicting {q : JsString} {f : Filters} {mn mx : JsVal}
    (hq : q ≠ []) (hv : validCharRe.test (normalize q) = true)
    (hacc : accumulate (normalize q) = .ok f) (hmn : f.min_length = some mn)
    (hmx : f.max_length = some mx) (hgt : jsGt mn mx = true) :
    parseNaturalQuery (.str q) = .error .conflicting := by
  have hne : f ≠ Filters.empty := by
    intro he
    rw [he] at hmn
    cases hmn
  simp [parseNaturalQuery, hq, hv, hacc, validate, hne, hmn, hmx, hgt]

/-- On a successful parse, two bounds that are numbers are in order. -/
theorem bounds_ordered_of_numbers {q : JsInput} {r : ParseResult} {a b : Int}
    (h : parseNaturalQuery q = .ok r) (hmn : r.parsed_filters.min_length = some (.num a))
    (hmx : r.parsed_filters.max_length = some (.num b)) : a ≤ b := by
  obtain ⟨s, -, -, -, -, -, hv⟩ := parseNaturalQuery_ok h
  obtain ⟨-, -, hgt⟩ := validate_ok hv
  have := hgt _ _ hmn hmx
  simp [jsGt, jsLt] at this
  exact this

/-- The examples of the specification (section 8). -/
theorem spec_examples :
    parse "this is a palindrome" = .ok ⟨⟨some true, none, none, none, none⟩⟩ ∧
      parse "not a palindrome" = .ok ⟨⟨some false, none, none, none, none⟩⟩ ∧
      parse "two word string" = .ok ⟨⟨none, some (.num 2), none, none, none⟩⟩ ∧
      parse "longer than 5" = .ok ⟨⟨none, none, some (.num 6), none, none⟩⟩ ∧
      parse "between 3 and 10" = .ok ⟨⟨none, none, some (.num 3), some (.num 10), none⟩⟩ ∧
      parse "between 10 and 3" = .error .conflicting ∧
      parse "contains the letter z" = .ok ⟨⟨none, none, none, none, some (js "z")⟩⟩ ∧
      parse "first vowel of the alphabet" = .ok ⟨⟨none, none, none, none, some (js "a")⟩⟩ ∧
      parse "third letter of the alphabet" = .ok ⟨⟨none, none, none, none, some (js "c")⟩⟩ ∧
      parse "" = .error .unparseable ∧
      parse "123!!!" = .error .unparseable ∧
      parse "does not contain a" = .error .conflicting := by
  decide

/-! ### Capture groups are kept, input is only consumed -/

theorem lookup_filter_ne (g : List (Nat × JsString)) {i j : Nat} (h : j ≠ i) :
    List.lookup j (g.filter (fun e => e.1 != i)) = List.lookup j g := by
  induction g with
  | nil => rfl
  | cons e es ih =>
    obtain ⟨k, w⟩ := e
    by_cases hk : k = i
    · subst hk
      have hjk : (j == k) = false := by simpa using h
      simp [List.filter, List.lookup, hjk, ih]
    · have hki : (k != i) = true := by simpa using hk
      simp only [List.filter, hki, List.lookup]
      split
      · rfl
      · exact ih

theorem Caps.get_set_ne (c : Caps) {i j : Nat} (v : JsString) (h : j ≠ i) :
    (c.set i v).get j = c.get j := by
  obtain ⟨g⟩ := c
  simp only [Caps.get, Caps.set]
  rw [List.lookup_cons]
  have hji : (j == i) = false := by simpa using h
  rw [hji]
  exact lookup_filter_ne g h

/-- A capture group that is set stays set during a match. -/
theorem reach_caps_mono (r : Re) :
    ∀ (s t : MatchState) (j : Nat), Reach r s t → (s.caps.get j).isSome = true →
      (t.caps.get j).isSome = true := by
  induction r with
  | eps => intro s t j h hs; cases h; exact hs
  | cls p => intro s t j h hs; obtain ⟨c, cs, -, -, ht⟩ := h; subst ht; exact hs
  | wordB => intro s t j h hs; obtain ⟨-, ht⟩ := h; subst ht; exact hs
  | eos => intro s t j h hs; obtain ⟨-, ht⟩ := h; subst ht; exact hs
  | seq a b iha ihb =>
    intro s t j h hs
    obtain ⟨u, hu, ht⟩ := h
    exact ihb u t j ht (iha s u j hu hs)
  | alt a b iha ihb =>
    intro s t j h hs
    rcases h with h | h
    · exact iha s t j h hs
    · exact ihb s t j h hs
  | opt a iha =>
    intro s t j h hs
    rcases h with h | h
    · exact iha s t j h hs
    · subst h; exact hs
  | star a iha =>
    intro s t j h hs
    induction h with
    | refl => exact hs
    | tail _ hbc ih => exact iha _ _ j hbc ih
  | grp i a iha =>
    intro s t j h hs
    obtain ⟨u, hu, ht⟩ := h
    subst ht
    by_cases hj : j = i
    · subst hj
      simp [setCap, Caps.get_set]
    · simp only [setCap, Caps.get_set_ne _ _ hj]
      exact iha s u j hu hs

/-- A match never gives input back. -/
theorem reach_rest_le (r : Re) :
    ∀ (s t : MatchState), Reach r s t → t.rest.length ≤ s.rest.length := by
  induction r with
  | eps => intro s t h; cases h; exact Nat.le_refl _
  | cls p =>
    intro s t h
    obtain ⟨c, cs, hs, -, ht⟩ := h
    subst ht
    simp [hs]
  | wordB => intro s t h; obtain ⟨-, ht⟩ := h; subst ht; exact Nat.le_refl _
  | eos => intro s t h; obtain ⟨-, ht⟩ := h; subst ht; exact Nat.le_refl _
  | seq a b iha ihb =>
    intro s t h
    obtain ⟨u, hu, ht⟩ := h
    exact Nat.le_trans (ihb u t ht) (iha s u hu)
  | alt a b iha ihb =>
    intro s t h
    rcases h with h | h
    · exact iha s t h
    · exact ihb s t h
  | opt a iha =>
    intro s t h
    rcases h with h | h
    · exact iha s t h
    · subst h; exact Nat.le_refl _
  | star a iha =>
    intro s t h
    induction h with
    | refl => exact Nat.le_refl _
    | tail _ hbc ih => exact Nat.le_trans (iha _ _ hbc) ih
  | grp i a iha =>
    intro s t h
    obtain ⟨u, hu, ht⟩ := h
    subst ht
    exact iha s u hu

/-- Every match of `ordinalRe` sets the groups 1 and 2 and consumes input: the text of
`ord` and `kind` is always defined, and the `exec` loop of step 4 always advances. -/
theorem ordinalRe_reach {s t : MatchState} (h : Reach ordinalRe s t) :
    (t.caps.get 1).isSome = true ∧ (t.caps.get 2).isSome = true ∧
      t.rest.length < s.rest.length := by
  unfold ordinalRe at h
  simp only [Re.cat] at h
  obtain ⟨u1, h1, u2, h2, u3, h3, u4, h4, u5, h5, u6, h6, u7, h7, h8⟩ := h
  have g1 : (u4.caps.get 1).isSome = true := by
    obtain ⟨u, -, hu⟩ := h4
    subst hu
    simp [setCap, Caps.get_set]
  have g2 : (u7.caps.get 2).isSome = true := by
    obtain ⟨u, -, hu⟩ := h7
    subst hu
    simp [setCap, Caps.get_set]
  refine ⟨?_, ?_, ?_⟩
  · exact reach_caps_mono _ _ _ 1 h8 (reach_caps_mono _ _ _ 1 h7
      (reach_caps_mono _ _ _ 1 h6 (reach_caps_mono _ _ _ 1 h5 g1)))
  · exact reach_caps_mono _ _ _ 2 h8 g2
  · have l1 := reach_rest_le _ _ _ h1
    have l2 := reach_rest_le _ _ _ h2
    have l3 := reach_rest_le _ _ _ h3
    have l4 := reach_rest_le _ _ _ h4
    have l5 := reach_rest_le _ _ _ h5
    have l7 := reach_rest_le _ _ _ h7
    have l8 := reach_rest_le _ _ _ h8
    have l6 : u6.rest.length < u5.rest.length := by
      unfold Re.sp Re.plus at h6
      obtain ⟨v, ⟨c, cs, hs, -, hv⟩, hst⟩ := h6
      have := reach_rest_le _ _ _ hst
      subst hv
      simp only [hs, List.length_cons] at this ⊢
      omega
    omega

/-- The groups `ord` and `kind` of every match of step 4 are defined. -/
theorem ordinalRe_groups (text : JsString) (m : Caps) (hm : m ∈ ordinalRe.matchAll text) :
    ∃ ord kind, m.get 1 = some ord ∧ m.get 2 = some kind := by
  obtain ⟨p, pre, suf, st, -, hst, hc⟩ := matchAllAux_mem hm
  obtain ⟨h1, h2, -⟩ := ordinalRe_reach (matchAt_reach hst)
  rw [hc] at h1 h2
  obtain ⟨ord, ho⟩ := Option.isSome_iff_exists.mp h1
  obtain ⟨kind, hk⟩ := Option.isSome_iff_exists.mp h2
  exact ⟨ord, kind, ho, hk⟩

/-! ### The sanity check -/

/-- On a text without a character of `[a-z0-9\s]`, the pattern of the sanity check finds no
match. -/
theorem validCharRe_test_false (t : JsString)
    (h : ∀ c ∈ t, (isLower c || isDigit c || isSpace c) = false) :
    validCharRe.test t = false := by
  have key : ∀ (l : JsString) (prev : Option Nat),
      (∀ c ∈ l, (isLower c || isDigit c || isSpace c) = false) →
      execFrom validCharRe prev l = none := by
    intro l
    induction l with
    | nil => intro prev _; rfl
    | cons x xs ih =>
      intro prev hl
      have hx := hl x (List.mem_cons_self _ _)
      have hm : matchAt validCharRe prev (x :: xs) = none := by
        simp only [matchAt, validCharRe, Re.run, hx]
        rfl
      simp only [execFrom, hm]
      exact ih _ (fun c hc => hl c (List.mem_cons_of_mem _ hc))
  simp [Re.test, key t none h]

/-! ### The text consumed by a match -/

/-- The input left after a match is a suffix of the input at its start. -/
theorem reach_suffix (r : Re) :
    ∀ (s t : MatchState), Reach r s t → ∃ w, s.rest = w ++ t.rest := by
  induction r with
  | eps => intro s t h; cases h; exact ⟨[], rfl⟩
  | cls p =>
    intro s t h
    obtain ⟨c, cs, hs, -, ht⟩ := h
    subst ht
    exact ⟨[c], by simp [hs]⟩
  | wordB => intro s t h; obtain ⟨-, ht⟩ := h; subst ht; exact ⟨[], rfl⟩
  | eos => intro s t h; obtain ⟨-, ht⟩ := h; subst ht; exact ⟨[], rfl⟩
  | seq a b iha ihb =>
    intro s t h
    obtain ⟨u, hu, ht⟩ := h
    obtain ⟨w1, h1⟩ := iha s u hu
    obtain ⟨w2, h2⟩ := ihb u t ht
    exact ⟨w1 ++ w2, by rw [h1, h2, List.append_assoc]⟩
  | alt a b iha ihb =>
    intro s t h
    rcases h with h | h
    · exact iha s t h
    · exact ihb s t h
  | opt a iha =>
    intro s t h
    rcases h with h | h
    · exact iha s t h
    · subst h; exact ⟨[], rfl⟩
  | star a iha =>
    intro s t h
    induction h with
    | refl => exact ⟨[], rfl⟩
    | tail _ hbc ih =>
      obtain ⟨w1, h1⟩ := ih
      obtain ⟨w2, h2⟩ := iha _ _ hbc
      exact ⟨w1 ++ w2, by rw [h1, h2, List.append_assoc]⟩
  | grp i a iha =>
    intro s t h
    obtain ⟨u, hu, ht⟩ := h
    subst ht
    exact iha s u hu

/-- The text of a group is the text read between its two ends. -/
theorem consumed_eq {s t : MatchState} {w : JsString} (h : s.rest = w ++ t.rest) :
    consumed s t = w := by
  simp [consumed, h]

/-- The sanity check `/[a-z0-9\s]/.test` succeeds on a text with a character of the class. -/
theorem validCharRe_test_of_mem :
    ∀ (pre : JsString) (prev : Option Nat) (c : Nat) (cs : JsString),
      (isLower c || isDigit c || isSpace c) = true →
      (execFrom validCharRe prev (pre ++ c :: cs)).isSome = true := by
  intro pre
  induction pre with
  | nil =>
    intro prev c cs hc
    simp only [List.nil_append, execFrom, matchAt, validCharRe, Re.run, hc]
    rfl
  | cons x xs ih =>
    intro prev c cs hc
    simp only [List.cons_append, execFrom]
    split
    · rfl
    · exact ih _ c cs hc

/-- Every match of `ordinalRe` reads a white-space character. -/
theorem ordinalRe_reads_space {s t : MatchState} (h : Reach ordinalRe s t) :
    ∃ pre c cs, s.rest = pre ++ c :: cs ∧ isSpace c = true := by
  unfold ordinalRe at h
  simp only [Re.cat] at h
  obtain ⟨u1, h1, u2, h2, u3, h3, u4, h4, u5, h5, u6, h6, -⟩ := h
  obtain ⟨w1, e1⟩ := reach_suffix _ _ _ h1
  obtain ⟨w2, e2⟩ := reach_suffix _ _ _ h2
  obtain ⟨w3, e3⟩ := reach_suffix _ _ _ h3
  obtain ⟨w4, e4⟩ := reach_suffix _ _ _ h4
  obtain ⟨w5, e5⟩ := reach_suffix _ _ _ h5
  unfold Re.sp Re.plus at h6
  obtain ⟨v, ⟨c, cs, hs, hc, -⟩, -⟩ := h6
  refine ⟨w1 ++ w2 ++ w3 ++ w4 ++ w5, c, cs, ?_, hc⟩
  rw [e1, e2, e3, e4, e5, hs]
  simp

/-- A text with a match of `ordinalRe` passes the sanity check, and is not empty. -/
theorem valid_of_ordinal_match {text : JsString} {m : Caps}
    (h : m ∈ ordinalRe.matchAll text) :
    validCharRe.test text = true ∧ text ≠ [] := by
  obtain ⟨p, pre, suf, st, hs, hst, -⟩ := matchAllAux_mem h
  obtain ⟨pre', c, cs, hsuf, hc⟩ := ordinalRe_reads_space (matchAt_reach hst)
  simp only at hsuf
  subst hsuf
  subst hs
  refine ⟨?_, by simp⟩
  have := validCharRe_test_of_mem (pre ++ pre') none c cs (by simp [hc])
  simpa [Re.test] using this

/-! ### The ordinal step -/

theorem tableAt_in_range (table : List JsString) (k : Int) (h1 : 1 ≤ k)
    (h2 : k ≤ table.length) :
    ∃ ch, table.get? (k - 1).toNat = some ch ∧ tableAt table (some (.num k)) = some ch := by
  have hlt : (k - 1).toNat < table.length := by omega
  obtain ⟨ch, hch⟩ : ∃ ch, table.get? (k - 1).toNat = some ch :=
    ⟨_, List.get?_eq_get hlt⟩
  refine ⟨ch, hch, ?_⟩
  have hge : jsGe (.num k) (.num 1) = true := by simp [jsGe, jsLt]; omega
  have hle : jsLe (.num k) (.num table.length) = true := by simp [jsLe, jsLt]; omega
  unfold tableAt
  simp only [hge, hle, Bool.and_self, if_true]
  exact hch

theorem tableAt_out_of_range (table : List JsString) (idx : Option JsVal)
    (h : ¬ ∃ k : Int, idx = some (.num k) ∧ 1 ≤ k ∧ k ≤ table.length) :
    tableAt table idx = none := by
  cases idx with
  | none => rfl
  | some v =>
    cases v with
    | num k =>
      unfold tableAt
      simp only
      split
      · rename_i hc
        exfalso
        apply h
        simp [jsGe, jsLe, jsLt] at hc
        exact ⟨k, rfl, hc.1, hc.2⟩
      · rfl
    | inf => simp [tableAt, jsGe, jsLe, jsLt]
    | negInf => simp [tableAt, jsGe, jsLe, jsLt]
    | nan => simp [tableAt, jsGe, jsLe, jsLt]
    | objectCtor => simp [tableAt, jsGe, jsLe, jsLt]
    | objectProto => simp [tableAt, jsGe, jsLe, jsLt]

theorem tableAt_ne_nil {table : List JsString} (ht : table ∈ [alphabet, vowels, consonants])
    {idx : Option JsVal} {ch : JsString} (h : tableAt table idx = some ch) : ch ≠ [] := by
  obtain ⟨c, hc, -⟩ := table_letter ht h
  rw [hc]
  simp

/-- The ordinal step with the groups of its last match. -/
theorem ordinalStage_eq {text : JsString} {last : Caps} {ord kind : JsString}
    (hlast : (ordinalRe.matchAll text).getLast? = some last)
    (hord : last.get 1 = some ord) (hkind : last.get 2 = some kind) (f : Filters) :
    ordinalStage text f = ordinalResolve f ord kind (last.get 3) := by
  simp [ordinalStage, hlast, hord, hkind]

/-- The ordinal step does the same to every object `filters`: it throws the unparseable
error, or leaves the object as it is, or sets `contains_character` to an entry of one of its
tables. -/
theorem ordinalStage_trichotomy (text : JsString) :
    (∀ f, ordinalStage text f = .error .unparseable) ∨
      (∀ f, ordinalStage text f = .ok f) ∨
      (∃ ch, ch ≠ [] ∧ ∀ f, ordinalStage text f = .ok { f with contains_character := some ch }) := by
  cases hl : (ordinalRe.matchAll text).getLast? with
  | none => exact Or.inr (Or.inl (fun f => by simp [ordinalStage, hl]))
  | some last =>
    cases h1 : last.get 1 with
    | none => exact Or.inr (Or.inl (fun f => by simp [ordinalStage, hl, h1]))
    | some ord =>
      cases h2 : last.get 2 with
      | none => exact Or.inr (Or.inl (fun f => by simp [ordinalStage, hl, h1, h2]))
      | some kind =>
        have heq : ∀ f, ordinalStage text f = ordinalResolve f ord kind (last.get 3) :=
          fun f => ordinalStage_eq hl h1 h2 f
        simp only [heq]
        unfold ordinalResolve
        simp only
        by_cases hA : kind = js "letter" ∧ last.get 3 = some (js "alphabet")
        · simp only [hA, and_self, if_true]
          cases ht : tableAt alphabet (ordinalNumber ord) with
          | none => exact Or.inl (fun f => rfl)
          | some ch =>
            exact Or.inr (Or.inr ⟨ch, tableAt_ne_nil (by simp) ht, fun f => rfl⟩)
        · simp only [hA, if_false]
          by_cases hV : kind = js "vowel"
          · simp only [hV, if_true]
            cases ht : tableAt vowels (ordinalNumber ord) with
            | none =>
              by_cases hS : last.get 3 = some (js "alphabet")
              · exact Or.inl (fun f => by simp [hS])
              · exact Or.inr (Or.inl (fun f => by simp [hS]))
            | some ch =>
              refine Or.inr (Or.inr ⟨ch, tableAt_ne_nil (by simp) ht, fun f => ?_⟩)
              by_cases hS : last.get 3 = some (js "alphabet") <;> simp [hS]
          · simp only [hV, if_false]
            by_cases hC : kind = js "consonant"
            · simp only [hC, if_true]
              cases ht : tableAt consonants (ordinalNumber ord) with
              | none =>
                by_cases hS : last.get 3 = some (js "alphabet")
                · exact Or.inl (fun f => by simp [hS])
                · exact Or.inr (Or.inl (fun f => by simp [hS]))
              | some ch =>
                refine Or.inr (Or.inr ⟨ch, tableAt_ne_nil (by simp) ht, fun f => ?_⟩)
                by_cases hS : last.get 3 = some (js "alphabet") <;> simp [hS]
            · exact Or.inr (Or.inl (fun f => by simp [hC]))

/-- The generic "contains" step on an object without `contains_character`: group 1 of the
last match of `containsRe`, if there is one. -/
theorem containsStage_unset (text : JsString) (f : Filters)
    (hf : f.contains_character = none) :
    (containsStage text f).contains_character =
      match (containsRe.matchAll text).getLast? with
      | some last => last.get 1
      | none => none := by
  unfold containsStage
  simp only [hf, true_or, if_true]
  cases hl : (containsRe.matchAll text).getLast? with
  | none => simp [hf]
  | some last =>
    simp only
    cases hg : last.get 1 with
    | none => simp [hf]
    | some ch =>
      obtain ⟨c, hc, -⟩ := containsRe_group text last ch (List.mem_of_getLast?_eq_some hl) hg
      subst hc
      simp

/-- The generic "contains" step leaves a non-empty `contains_character` as it is. -/
theorem containsStage_set (text : JsString) (f : Filters) (ch : JsString)
    (hf : f.contains_character = some ch) (hch : ch ≠ []) : containsStage text f = f := by
  unfold containsStage
  simp [hf, hch]

/-- The ordinal index of the ordinals that `ordinalRe` accepts: the five ordinal words, and
a numeral (whose suffix `st`, `nd`, `rd` or `th` is outside group 1); `0` is not resolved. -/
theorem ordinalNumber_examples :
    ordinalNumber (js "first") = some (.num 1) ∧ ordinalNumber (js "second") = some (.num 2) ∧
      ordinalNumber (js "third") = some (.num 3) ∧
      ordinalNumber (js "fourth") = some (.num 4) ∧
      ordinalNumber (js "fifth") = some (.num 5) ∧ ordinalNumber (js "21") = some (.num 21) ∧
      ordinalNumber (js "0") = none := by
  decide

/-- On a successful parse, `contains_character` is what the generic "contains" step makes of
the object left by the ordinal step. -/
theorem parse_contains {q : JsString} {r : ParseResult}
    (h : parseNaturalQuery (.str q) = .ok r) :
    ∃ f3 f4, f3.contains_character = none ∧ ordinalStage (normalize q) f3 = .ok f4 ∧
      r.parsed_filters.contains_character =
        (containsStage (normalize q) f4).contains_character := by
  obtain ⟨s, hs, -, -, hc, -, -⟩ := parseNaturalQuery_ok h
  cases hs
  obtain ⟨b, -, -, -, -, -, f3, f4, h3, h4, hf⟩ := collect_ok hc
  exact ⟨f3, f4, h3, h4, by rw [hf]⟩

/-! ### Patterns without groups, literal texts -/

/-- A pattern without capture groups leaves the capture groups as they are. -/
theorem reach_groupFree (r : Re) :
    ∀ (s t : MatchState), r.groupFree = true → Reach r s t → t.caps = s.caps := by
  induction r with
  | eps => intro s t _ h; cases h; rfl
  | cls p => intro s t _ h; obtain ⟨c, cs, -, -, ht⟩ := h; subst ht; rfl
  | wordB => intro s t _ h; obtain ⟨-, ht⟩ := h; subst ht; rfl
  | eos => intro s t _ h; obtain ⟨-, ht⟩ := h; subst ht; rfl
  | seq a b iha ihb =>
    intro s t hg h
    simp only [Re.groupFree, Bool.and_eq_true] at hg
    obtain ⟨u, hu, ht⟩ := h
    rw [ihb u t hg.2 ht, iha s u hg.1 hu]
  | alt a b iha ihb =>
    intro s t hg h
    simp only [Re.groupFree, Bool.and_eq_true] at hg
    rcases h with h | h
    · exact iha s t hg.1 h
    · exact ihb s t hg.2 h
  | opt a iha =>
    intro s t hg h
    simp only [Re.groupFree] at hg
    rcases h with h | h
    · exact iha s t hg h
    · subst h; rfl
  | star a iha =>
    intro s t hg h
    simp only [Re.groupFree] at hg
    induction h with
    | refl => rfl
    | tail _ hbc ih => rw [iha _ _ hg hbc, ih]
  | grp i a _ =>
    intro s t hg _
    simp [Re.groupFree] at hg

/-- A match of an alternation is a match of one of the alternatives. -/
theorem reach_any (rs : List Re) (s t : MatchState) (h : Reach (Re.any rs) s t) :
    ∃ r ∈ rs, Reach r s t := by
  induction rs with
  | nil =>
    obtain ⟨c, cs, -, hp, -⟩ := h
    cases hp
  | cons r rs ih =>
    cases rs with
    | nil => exact ⟨r, List.mem_cons_self _ _, h⟩
    | cons r' rs' =>
      rcases h with h | h
      · exact ⟨r, List.mem_cons_self _ _, h⟩
      · obtain ⟨x, hx, hr⟩ := ih h
        exact ⟨x, List.mem_cons_of_mem _ hx, hr⟩

/-- A match of a literal text reads exactly that text, and sets no group. -/
theorem reach_lit (w : String) (s t : MatchState) (h : Reach (Re.lit w) s t) :
    s.rest = js w ++ t.rest ∧ t.caps = s.caps := by
  unfold Re.lit at h
  unfold js
  generalize w.data = l at h
  induction l generalizing s with
  | nil => cases h; exact ⟨rfl, rfl⟩
  | cons c cs ih =>
    simp only [List.foldr] at h
    obtain ⟨u, ⟨x, xs, hs, hx, hu⟩, ht⟩ := h
    obtain ⟨h1, h2⟩ := ih u ht
    subst hu
    simp only [Re.chr, beq_iff_eq] at hx
    simp only at h1 h2
    refine ⟨?_, h2⟩
    rw [hs, h1, hx]
    rfl

/-- Group 1 of a match of the word-count pattern is one of its number words. -/
theorem wordCountRe_group {s t : MatchState} (h : Reach wordCountRe s t) :
    ∃ w ∈ countWords, t.caps.get 1 = some (js w) := by
  unfold wordCountRe at h
  simp only [Re.cat] at h
  obtain ⟨u1, -, u2, -, u3, h3, hrest⟩ := h
  have hcaps : t.caps = u3.caps := by
    refine reach_groupFree _ _ _ ?_ hrest
    decide
  obtain ⟨v, hv, hu3⟩ := h3
  unfold Re.words at hv
  obtain ⟨r, hr, hreach⟩ := reach_any _ _ _ hv
  obtain ⟨w, hw, hrw⟩ := List.mem_map.mp hr
  subst hrw
  obtain ⟨hrest', -⟩ := reach_lit w _ _ hreach
  refine ⟨w, hw, ?_⟩
  rw [hcaps, hu3]
  simp [setCap, Caps.get_set, consumed_eq hrest']

/-- Each number word of the word-count pattern resolves to its value in `numberWords`, a
number from 1 to 10. -/
theorem countWords_values :
    ∀ w ∈ countWords, ∃ n ∈ [1, 2, 3, 4, 5, 6, 7, 8, 9, (10 : Int)],
      numberWords.lookup (js w) = some n ∧ extractNumber (some (js w)) = some (.num n) := by
  decide

theorem wordCountStage_word_count (text : JsString) (f : Filters) (v : JsVal)
    (hf : f.word_count = none) (h : (wordCountStage text f).word_count = some v) :
    ∃ m w, wordCountRe.firstMatch text = some m ∧ m.get 1 = some w ∧
      extractNumber (some w) = some v := by
  unfold wordCountStage at h
  split at h
  · rw [hf] at h; cases h
  · rename_i m hm
    split at h
    · rw [hf] at h; cases h
    · rename_i w hw
      split at h
      · rw [hf] at h; cases h
      · split at h
        · rename_i n hn
          split at h
          · simp only [Option.some.injEq] at h
            subst h
            exact ⟨m, w, hm, hw, hn⟩
          · rw [hf] at h; cases h
        · rw [hf] at h; cases h

/-! ### The tokens of the length clauses -/

theorem reach_star_cls (p : Nat → Bool) (s t : MatchState)
    (h : Reach (.star (.cls p)) s t) :
    ∃ w, s.rest = w ++ t.rest ∧ ∀ c ∈ w, p c = true := by
  induction h with
  | refl => exact ⟨[], rfl, by simp⟩
  | tail _ hbc ih =>
    obtain ⟨w, hw, hp⟩ := ih
    obtain ⟨c, cs, hs, hc, ht⟩ := hbc
    subst ht
    refine ⟨w ++ [c], ?_, ?_⟩
    · simp [hw, hs]
    · intro x hx
      rcases List.mem_append.mp hx with hx | hx
      · exact hp x hx
      · rw [List.mem_singleton.mp hx]; exact hc

/-- Group 1 around `\w+` holds a text of word characters. -/
theorem reach_grp_word {s t : MatchState} (h : Reach (.grp 1 Re.word) s t) :
    ∃ w, t.caps.get 1 = some w ∧ ∀ c ∈ w, isWord c = true := by
  obtain ⟨u, hu, ht⟩ := h
  unfold Re.word Re.plus at hu
  obtain ⟨v, ⟨c, cs, hs, hc, hv⟩, hstar⟩ := hu
  obtain ⟨w, hw, hp⟩ := reach_star_cls _ _ _ hstar
  subst hv
  simp only at hw
  refine ⟨c :: w, ?_, ?_⟩
  · subst ht
    have : s.rest = (c :: w) ++ u.rest := by rw [hs, hw]; rfl
    simp [setCap, Caps.get_set, consumed_eq this]
  · intro x hx
    rcases List.mem_cons.mp hx with hx | hx
    · rw [hx]; exact hc
    · exact hp x hx

/-- Group 1 of a match of the "longer than" pattern is a text of word characters. -/
theorem longerRe_group (text : JsString) (m : Caps) (hm : m ∈ longerRe.matchAll text) :
    ∃ w, m.get 1 = some w ∧ ∀ c ∈ w, isWord c = true := by
  obtain ⟨p, pre, suf, st, -, hst, hc⟩ := matchAllAux_mem hm
  have hr := matchAt_reach hst
  unfold longerRe comparativeTail at hr
  simp only [Re.cat] at hr
  obtain ⟨u1, hr⟩ := reach_seq_right hr
  obtain ⟨u2, hr⟩ := reach_seq_right hr
  obtain ⟨u3, hr⟩ := reach_seq_right hr
  obtain ⟨u4, hr⟩ := reach_seq_right hr
  obtain ⟨u5, hr⟩ := reach_seq_right hr
  rw [← hc]
  exact reach_grp_word hr

/-- Group 1 of a match of the "at least" pattern is a text of word characters. -/
theorem atLeastRe_group (text : JsString) (m : Caps) (hm : m ∈ atLeastRe.matchAll text) :
    ∃ w, m.get 1 = some w ∧ ∀ c ∈ w, isWord c = true := by
  obtain ⟨p, pre, suf, st, -, hst, hc⟩ := matchAllAux_mem hm
  have hr := matchAt_reach hst
  unfold atLeastRe at hr
  simp only [Re.cat] at hr
  obtain ⟨u1, hr⟩ := reach_seq_right hr
  obtain ⟨u2, hr⟩ := reach_seq_right hr
  obtain ⟨u3, hr⟩ := reach_seq_right hr
  rw [← hc]
  exact reach_grp_word hr

theorem trimStart_mem (l : JsString) : ∀ c ∈ trimStart l, c ∈ l := by
  induction l with
  | nil => intro c hc; exact hc
  | cons x xs ih =>
    intro c hc
    unfold trimStart at hc
    split at hc
    · exact List.mem_cons_of_mem _ (ih c hc)
    · exact hc

theorem replaceFirst_mem (re : Re) (l : JsString) :
    ∀ (prev : Option Nat), ∀ c ∈ replaceFirst re prev l, c ∈ l := by
  induction l with
  | nil => intro prev c hc; exact hc
  | cons x xs ih =>
    intro prev c hc
    unfold replaceFirst at hc
    split at hc
    · rename_i m hm
      obtain ⟨w, hw⟩ := reach_suffix _ _ _ (matchAt_reach hm)
      simp only at hw
      rw [hw]
      exact List.mem_append_right _ hc
    · rcases List.mem_cons.mp hc with h | h
      · rw [h]; exact List.mem_cons_self _ _
      · exact List.mem_cons_of_mem _ (ih _ c h)

theorem toLowerCase_word (s : JsString) (hs : ∀ c ∈ s, isWord c = true) :
    ∀ c ∈ toLowerCase s, c ≠ 45 := by
  intro c hc
  unfold toLowerCase at hc
  obtain ⟨x, hx, hcx⟩ := List.mem_flatMap.mp hc
  have hw := hs x hx
  unfold lowerChar at hcx
  simp only [isWord, isLower, isUpper, isDigit, Bool.or_eq_true, Bool.and_eq_true,
    decide_eq_true_eq, beq_iff_eq] at hw hcx
  split at hcx
  · simp only [List.mem_singleton] at hcx
    omega
  · split at hcx
    · omega
    · split at hcx
      · omega
      · split at hcx
        · omega
        · simp only [List.mem_singleton] at hcx
          omega

theorem droppedBits_small (fuel n : Nat) (h : n < 9007199254740992) :
    droppedBits fuel n = 0 := by
  cases fuel with
  | zero => rfl
  | succ k => simp [droppedBits, h]

/-- A natural number up to `2 ^ 53` is kept by the rounding. -/
theorem roundNat_small (n : Nat) (h : n ≤ 9007199254740992) : roundNat n = n := by
  rcases Nat.lt_or_ge n 9007199254740992 with hlt | hge
  · simp [roundNat, droppedBits_small n n hlt]
  · have : n = 9007199254740992 := Nat.le_antisymm h hge
    subst this
    decide

/-- An integer of magnitude up to `2 ^ 53` is a double. -/
theorem toDouble_exact (z : Int) (h : z.natAbs ≤ 9007199254740992) : toDouble z = .num z := by
  unfold toDouble
  simp only [roundNat_small _ h]
  have hlt : z.natAbs < 1 <<< 1024 :=
    Nat.lt_of_le_of_lt h (by decide)
  rw [if_pos hlt]
  congr 1
  split <;> omega

/-- The Number value of an integer that is not negative is `Infinity` or a finite number that
is not negative. -/
theorem toDouble_nonneg (z : Int) (hz : 0 ≤ z) :
    toDouble z = .inf ∨ ∃ k : Int, 0 ≤ k ∧ toDouble z = .num k := by
  unfold toDouble
  simp only [Int.not_lt.mpr hz, if_false]
  split
  · exact Or.inr ⟨_, Int.ofNat_nonneg _, rfl⟩
  · exact Or.inl rfl

theorem parseInt_nonneg (l : JsString) (hl : ∀ c ∈ l, c ≠ 45) (n : Int)
    (h : parseInt l = some (.num n)) : 0 ≤ n := by
  unfold parseInt at h
  split at h
  · cases h
  · rename_i c cs hc
    have hc45 : c ≠ 45 := hl c (trimStart_mem l c (by rw [hc]; exact List.mem_cons_self _ _))
    simp only at h
    split at h
    · cases h
    · split at h
      · simp only [hc45, if_false, Option.some.injEq] at h
        rcases toDouble_nonneg _ (Int.ofNat_nonneg _) with h1 | ⟨k, hk, h1⟩
        · rw [h1] at h
          cases h
        · rw [h1] at h
          cases h
          exact hk
      · cases h

theorem lookup_mem_snd {α β : Type} [BEq α] (l : List (α × β)) (k : α) (v : β)
    (h : l.lookup k = some v) : v ∈ l.map Prod.snd := by
  induction l with
  | nil => cases h
  | cons e es ih =>
    obtain ⟨a, b⟩ := e
    simp only [List.lookup] at h
    split at h
    · cases h
      simp
    · simp only [List.map_cons, List.mem_cons]
      exact Or.inr (ih h)

/-- A token of word characters that resolves to a number resolves to a number that is not
negative: `parseInt` reads no sign, and the values of `numberWords` are positive. -/
theorem extractNumber_nonneg (w : JsString) (hw : ∀ c ∈ w, isWord c = true) (n : Int)
    (h : extractNumber (some w) = some (.num n)) : 0 ≤ n := by
  unfold extractNumber at h
  simp only at h
  split at h
  · cases h
  · split at h
    · rename_i k hk
      simp only [Option.some.injEq] at h
      subst h
      exact parseInt_nonneg _
        (fun c hc => toLowerCase_word w hw c (replaceFirst_mem _ _ _ c hc)) n hk
    · split at h
      · rename_i v hv
        split at h
        · simp only [Option.some.injEq] at h
          subst h
          unfold getProp at hv
          split at hv
          · rename_i k hk
            simp only [Option.some.injEq, JsVal.num.injEq] at hv
            subst hv
            have hmem := lookup_mem_snd _ _ _ hk
            have hall : ∀ x ∈ numberWords.map Prod.snd, (0 : Int) ≤ x := by decide
            exact hall _ hmem
          · split at hv
            · cases hv
            · split at hv
              · cases hv
              · cases hv
        · cases h
      · cases h

/-! ### The lower bound as a maximum -/

/-- A loop of the length step only depends on the values that its matches resolve to. -/
theorem foldl_resolved (g : Option JsVal → JsVal → JsVal) (ms : List Caps) :
    ∀ acc : Option JsVal,
      ms.foldl (fun acc m =>
        match extractNumber (m.get 1) with
        | some n => some (g acc n)
        | none => acc) acc =
      (ms.filterMap (fun m => extractNumber (m.get 1))).foldl
        (fun acc n => some (g acc n)) acc := by
  induction ms with
  | nil => intro acc; rfl
  | cons m ms ih =>
    intro acc
    simp only [List.foldl_cons, List.filterMap_cons]
    cases h : extractNumber (m.get 1) with
    | none => exact ih acc
    | some n => simp only [List.foldl_cons]; exact ih _

theorem orDefault_nonneg (a : JsVal) (ha : a.isNonNeg = true) :
    orDefault (some a) (.num 0) = a := by
  cases a with
  | num n =>
    by_cases h : n = 0
    · simp [orDefault, JsVal.truthy, h]
    · simp [orDefault, JsVal.truthy, h]
  | inf => rfl
  | negInf => cases ha
  | nan => cases ha
  | objectCtor => cases ha
  | objectProto => cases ha

/-- The function `Math.max` on two numbers that are not negative gives one of them, and
neither is greater than it. -/
theorem mathMax_nonneg (a x : JsVal) (ha : a.isNonNeg = true) (hx : x.isNonNeg = true) :
    (mathMax a x).isNonNeg = true ∧ jsLe a (mathMax a x) = true ∧
      jsLe x (mathMax a x) = true ∧ (mathMax a x = a ∨ mathMax a x = x) := by
  cases a <;> cases x <;>
    simp_all [mathMax, JsVal.toNumber, JsVal.isNonNeg, jsLe, jsLt]
  omega

theorem jsLe_trans_nonneg (a b c : JsVal) (ha : a.isNonNeg = true) (hb : b.isNonNeg = true)
    (hc : c.isNonNeg = true) (h1 : jsLe a b = true) (h2 : jsLe b c = true) :
    jsLe a c = true := by
  cases a <;> cases b <;> cases c <;> simp_all [JsVal.isNonNeg, jsLe, jsLt]
  omega

/-- The fold `Math.max(minLength || 0, x)` over numbers that are not negative, from a bound
that is not negative: the result is the greatest of the bound and the numbers. -/
theorem maxFold_some (xs : List JsVal) (hxs : ∀ x ∈ xs, x.isNonNeg = true) :
    ∀ a : JsVal, a.isNonNeg = true →
      ∃ v, xs.foldl (fun acc n => some (mathMax (orDefault acc (.num 0)) n)) (some a) =
          some v ∧
        v.isNonNeg = true ∧ jsLe a v = true ∧ (v = a ∨ v ∈ xs) ∧
        ∀ x ∈ xs, jsLe x v = true := by
  induction xs with
  | nil =>
    intro a ha
    refine ⟨a, rfl, ha, ?_, Or.inl rfl, by simp⟩
    cases a <;> simp_all [JsVal.isNonNeg, jsLe, jsLt]
  | cons x xs ih =>
    intro a ha
    have hx := hxs x (List.mem_cons_self _ _)
    obtain ⟨hb, hab, hxb, hor⟩ := mathMax_nonneg a x ha hx
    obtain ⟨v, hv, hvn, hbv, h2, h3⟩ :=
      ih (fun y hy => hxs y (List.mem_cons_of_mem _ hy)) (mathMax a x) hb
    refine ⟨v, ?_, hvn, jsLe_trans_nonneg _ _ _ ha hb hvn hab hbv, ?_, ?_⟩
    · simp only [List.foldl_cons, orDefault_nonneg a ha]
      exact hv
    · rcases h2 with h2 | h2
      · rcases hor with hor | hor
        · left; rw [h2, hor]
        · right; rw [h2, hor]; exact List.mem_cons_self _ _
      · right; exact List.mem_cons_of_mem _ h2
    · intro y hy
      rcases List.mem_cons.mp hy with hy | hy
      · rw [hy]; exact jsLe_trans_nonneg _ _ _ hx hb hvn hxb hbv
      · exact h3 y hy

/-- The same fold from `undefined`, over a list that is not empty: the result is the greatest
of the numbers. -/
theorem maxFold_none (xs : List JsVal) (hxs : ∀ x ∈ xs, x.isNonNeg = true) (hne : xs ≠ []) :
    ∃ v, xs.foldl (fun acc n => some (mathMax (orDefault acc (.num 0)) n)) none = some v ∧
      v ∈ xs ∧ ∀ x ∈ xs, jsLe x v = true := by
  cases xs with
  | nil => exact absurd rfl hne
  | cons x xs =>
    have hx := hxs x (List.mem_cons_self _ _)
    obtain ⟨v, hv, -, h1, h2, h3⟩ := maxFold_some xs
      (fun y hy => hxs y (List.mem_cons_of_mem _ hy)) x hx
    refine ⟨v, ?_, ?_, ?_⟩
    · simp only [List.foldl_cons]
      have : mathMax (orDefault none (.num 0)) x = x := by
        cases x <;> simp_all [orDefault, mathMax, JsVal.toNumber, JsVal.isNonNeg]
      rw [this]
      exact hv
    · rcases h2 with h2 | h2
      · rw [h2]; exact List.mem_cons_self _ _
      · exact List.mem_cons_of_mem _ h2
    · intro y hy
      rcases List.mem_cons.mp hy with hy | hy
      · rw [hy]; exact h1
      · exact h3 y hy

theorem shorterLoop_unresolved (ms : List Caps) (acc : Option JsVal)
    (h : ∀ m ∈ ms, extractNumber (m.get 1) = none) : shorterLoop ms acc = acc := by
  unfold shorterLoop
  induction ms generalizing acc with
  | nil => rfl
  | cons m ms ih =>
    simp only [List.foldl_cons, h m (List.mem_cons_self _ _)]
    exact ih acc (fun x hx => h x (List.mem_cons_of_mem _ hx))

/-- The numbers that the matches of a pattern resolve to are not negative when group 1 of
every match is a text of word characters. -/
theorem resolved_nonneg (ms : List Caps) (Ns : List Int)
    (hg : ∀ m ∈ ms, ∃ w, m.get 1 = some w ∧ ∀ c ∈ w, isWord c = true)
    (hN : ms.filterMap (fun m => extractNumber (m.get 1)) = Ns.map JsVal.num) :
    ∀ n ∈ Ns, 0 ≤ n := by
  intro n hn
  have hmem : JsVal.num n ∈ ms.filterMap (fun m => extractNumber (m.get 1)) := by
    rw [hN]; exact List.mem_map_of_mem _ hn
  obtain ⟨m, hm, hx⟩ := List.mem_filterMap.mp hmem
  obtain ⟨w, hw, hword⟩ := hg m hm
  rw [hw] at hx
  exact extractNumber_nonneg w hword n hx

/-- The variable `minLength` after the loops over the "longer than" and the "at least"
matches, when these resolve to the numbers `Ns` and `Ms`. -/
theorem lowerBound_eq (text : JsString) (Ns Ms : List Int)
    (hN : (longerRe.matchAll text).filterMap (fun m => extractNumber (m.get 1)) =
      Ns.map JsVal.num)
    (hM : (atLeastRe.matchAll text).filterMap (fun m => extractNumber (m.get 1)) =
      Ms.map JsVal.num) :
    atLeastLoop (atLeastRe.matchAll text) (longerLoop (longerRe.matchAll text) none) =
      (Ns.map (fun n => toDouble (n + 1)) ++ Ms.map JsVal.num).foldl
        (fun acc n => some (mathMax (orDefault acc (.num 0)) n)) none := by
  unfold atLeastLoop longerLoop
  rw [foldl_resolved (fun acc n => mathMax (orDefault acc (.num 0)) n.plusOne),
    foldl_resolved (fun acc n => mathMax (orDefault acc (.num 0)) n), hN, hM,
    List.foldl_append]
  congr 1
  simp only [List.foldl_map]
  rfl

/-- The numbers `N + 1` and `M` of the lower-bound clauses are not negative. -/
theorem lowerBounds_nonneg (Ns Ms : List Int) (hNs : ∀ n ∈ Ns, 0 ≤ n)
    (hMs : ∀ n ∈ Ms, 0 ≤ n) :
    ∀ x ∈ Ns.map (fun n => toDouble (n + 1)) ++ Ms.map JsVal.num, x.isNonNeg = true := by
  intro x hx
  rcases List.mem_append.mp hx with hx | hx
  · obtain ⟨n, hn, rfl⟩ := List.mem_map.mp hx
    have h0 : (0 : Int) ≤ n + 1 := by have := hNs n hn; omega
    rcases toDouble_nonneg _ h0 with h | ⟨k, hk, h⟩
    · rw [h]; rfl
    · rw [h]; simpa [JsVal.isNonNeg] using hk
  · obtain ⟨n, hn, rfl⟩ := List.mem_map.mp hx
    simpa [JsVal.isNonNeg] using hMs n hn

/-- Below `2 ^ 53` the sum `N + 1` is exact. -/
theorem lowerBounds_exact (Ns Ms : List Int) (hNs : ∀ n ∈ Ns, 0 ≤ n)
    (hsafe : ∀ n ∈ Ns, n < 2 ^ 53) :
    Ns.map (fun n => toDouble (n + 1)) ++ Ms.map JsVal.num =
      (Ns.map (· + 1) ++ Ms).map JsVal.num := by
  rw [List.map_append, List.map_map]
  congr 1
  apply List.map_congr_left
  intro n hn
  have h0 := hNs n hn
  have h1 := hsafe n hn
  have h2 : (2 : Int) ^ 53 = 9007199254740992 := by norm_num
  rw [h2] at h1
  exact toDouble_exact _ (by omega)

/-! ### Normalization -/

theorem lowerChar_fixed (x : Nat) : ∀ c ∈ lowerChar x, lowerChar c = [c] := by
  intro c hc
  unfold lowerChar at hc
  split at hc
  · rename_i hu
    simp only [List.mem_singleton] at hc
    simp only [isUpper, Bool.and_eq_true, decide_eq_true_eq] at hu
    subst hc
    have hnu : isUpper (x + 32) = false := by
      simp [isUpper]; omega
    have h0 : ¬ (192 ≤ x + 32 ∧ x + 32 ≤ 222 ∧ x + 32 ≠ 215) := by omega
    have h1 : x + 32 ≠ 8490 := by omega
    have h2 : x + 32 ≠ 304 := by omega
    simp only [lowerChar, hnu, h0, h1, h2, if_false, Bool.false_eq_true]
  · split at hc
    · rename_i hu hl
      simp only [List.mem_singleton] at hc
      subst hc
      have hnu : isUpper (x + 32) = false := by
        simp [isUpper]; omega
      have h0 : ¬ (192 ≤ x + 32 ∧ x + 32 ≤ 222 ∧ x + 32 ≠ 215) := by omega
      have h1 : x + 32 ≠ 8490 := by omega
      have h2 : x + 32 ≠ 304 := by omega
      simp only [lowerChar, hnu, h0, h1, h2, if_false, Bool.false_eq_true]
    · split at hc
      · simp only [List.mem_singleton] at hc
        subst hc
        decide
      · split at hc
        · simp only [List.mem_cons, List.mem_singleton, List.mem_nil_iff, or_false] at hc
          rcases hc with hc | hc <;> subst hc <;> decide
        · rename_i h0 h1 h2 h3
          simp only [List.mem_singleton] at hc
          subst hc
          simp [lowerChar, h0, h1, h2, h3]

theorem toLowerCase_of_fixed (l : JsString) (h : ∀ c ∈ l, lowerChar c = [c]) :
    toLowerCase l = l := by
  unfold toLowerCase
  induction l with
  | nil => rfl
  | cons x xs ih =>
    simp only [List.flatMap_cons, h x (List.mem_cons_self _ _)]
    rw [ih (fun c hc => h c (List.mem_cons_of_mem _ hc))]
    rfl

theorem toLowerCase_fixed (s : JsString) : ∀ c ∈ toLowerCase s, lowerChar c = [c] := by
  intro c hc
  unfold toLowerCase at hc
  obtain ⟨x, -, hcx⟩ := List.mem_flatMap.mp hc
  exact lowerChar_fixed x c hcx

theorem trim_mem (l : JsString) : ∀ c ∈ trim l, c ∈ l := by
  intro c hc
  unfold trim at hc
  have h1 := trimStart_mem _ c (List.mem_reverse.mp hc)
  exact trimStart_mem _ c (List.mem_reverse.mp h1)

/-- The text left by `trimStart` does not start with white space. -/
theorem trimStart_head (l : JsString) :
    ∀ c cs, trimStart l = c :: cs → isSpace c = false := by
  induction l with
  | nil => intro c cs h; cases h
  | cons x xs ih =>
    intro c cs h
    unfold trimStart at h
    split at h
    · exact ih c cs h
    · rename_i hx
      cases h
      simpa using hx

theorem trimStart_of_head (l : JsString) (h : ∀ c cs, l = c :: cs → isSpace c = false) :
    trimStart l = l := by
  cases l with
  | nil => rfl
  | cons x xs =>
    have := h x xs rfl
    simp [trimStart, this]

theorem trimStart_suffix (l : JsString) : ∃ pre, l = pre ++ trimStart l := by
  induction l with
  | nil => exact ⟨[], rfl⟩
  | cons x xs ih =>
    unfold trimStart
    split
    · obtain ⟨pre, hpre⟩ := ih
      exact ⟨x :: pre, by rw [List.cons_append, ← hpre]⟩
    · exact ⟨[], rfl⟩

/-- The text left by `trim` starts and ends with no white space: `trim` leaves it as it
is. -/
theorem trim_idem (l : JsString) : trim (trim l) = trim l := by
  unfold trim
  have hb : ∀ c cs, (trimStart (trimStart l).reverse).reverse = c :: cs →
      isSpace c = false := by
    intro c cs h
    obtain ⟨pre, hpre⟩ := trimStart_suffix (trimStart l).reverse
    have h2 : trimStart l = (trimStart (trimStart l).reverse).reverse ++ pre.reverse := by
      have := congrArg List.reverse hpre
      simpa using this
    rw [h] at h2
    exact trimStart_head l c _ h2
  rw [trimStart_of_head _ hb, List.reverse_reverse,
    trimStart_of_head _ (trimStart_head _)]

theorem normalize_idem (q : JsString) : normalize (normalize q) = normalize q := by
  unfold normalize
  rw [toLowerCase_of_fixed (trim (toLowerCase q))
    (fun c hc => toLowerCase_fixed q c (trim_mem _ c hc)), trim_idem]

theorem validCharRe_test_nil : validCharRe.test [] = false := by decide

theorem lookup_mem {α β : Type} [BEq α] [LawfulBEq α] (l : List (α × β)) (k : α) (v : β)
    (h : l.lookup k = some v) : (k, v) ∈ l := by
  induction l with
  | nil => cases h
  | cons e es ih =>
    obtain ⟨a, b⟩ := e
    simp only [List.lookup] at h
    split at h
    · rename_i heq
      cases h
      have : k = a := by simpa using heq
      subst this
      exact List.mem_cons_self _ _
    · exact List.mem_cons_of_mem _ (ih h)

/-- The program's lower-casing does not tell a capital letter from its small letter. -/
theorem lowerChar_smallLetter (c : Nat) : lowerChar (smallLetter c) = lowerChar c := by
  unfold smallLetter
  cases h : (capitalLetters.zip smallLetters).lookup c with
  | none => rfl
  | some d =>
    have hmem := lookup_mem _ _ _ h
    have hall : ∀ e ∈ capitalLetters.zip smallLetters,
        lowerChar e.2 = lowerChar e.1 := by decide
    exact hall _ hmem

theorem toLowerCase_lowercased (s : JsString) : toLowerCase (lowercased s) = toLowerCase s := by
  unfold toLowerCase lowercased
  induction s with
  | nil => rfl
  | cons c cs ih =>
    simp only [List.map_cons, List.flatMap_cons, lowerChar_smallLetter, ih]

theorem lowerChar_space (c : Nat) (h : isSpace c = true) : lowerChar c = [c] := by
  simp only [isSpace, Bool.or_eq_true, Bool.and_eq_true, decide_eq_true_eq, beq_iff_eq] at h
  have hu : isUpper c = false := by
    simp [isUpper]; omega
  have h0 : ¬ (192 ≤ c ∧ c ≤ 222 ∧ c ≠ 215) := by omega
  have h1 : c ≠ 8490 := by omega
  have h2 : c ≠ 304 := by omega
  simp [lowerChar, hu, h0, h1, h2]

theorem toLowerCase_spaces (l : JsString) (h : ∀ c ∈ l, isSpace c = true) :
    toLowerCase l = l :=
  toLowerCase_of_fixed l (fun c hc => lowerChar_space c (h c hc))

theorem toLowerCase_append (a b : JsString) :
    toLowerCase (a ++ b) = toLowerCase a ++ toLowerCase b := by
  simp [toLowerCase, List.flatMap_append]

theorem trimStart_spaces_append (l x : JsString) (h : ∀ c ∈ l, isSpace c = true) :
    trimStart (l ++ x) = trimStart x := by
  induction l with
  | nil => rfl
  | cons c cs ih =>
    have hc := h c (List.mem_cons_self _ _)
    simp only [List.cons_append, trimStart, hc, if_true]
    exact ih (fun d hd => h d (List.mem_cons_of_mem _ hd))

theorem trimStart_append_of_ne_nil (u r : JsString) (h : trimStart u ≠ []) :
    trimStart (u ++ r) = trimStart u ++ r := by
  induction u with
  | nil => exact absurd rfl h
  | cons c cs ih =>
    by_cases hc : isSpace c = true
    · simp only [List.cons_append, trimStart, hc, if_true] at h ⊢
      exact ih h
    · simp [trimStart, hc]

theorem trimStart_eq_nil (u : JsString) (h : trimStart u = []) : ∀ c ∈ u, isSpace c = true := by
  induction u with
  | nil => intro c hc; cases hc
  | cons x xs ih =>
    unfold trimStart at h
    split at h
    · rename_i hx
      intro c hc
      rcases List.mem_cons.mp hc with hc | hc
      · rw [hc]; exact hx
      · exact ih h c hc
    · cases h

/-- White space around a text is removed by `trim`. -/
theorem trim_padded (l u r : JsString) (hl : ∀ c ∈ l, isSpace c = true)
    (hr : ∀ c ∈ r, isSpace c = true) : trim (l ++ u ++ r) = trim u := by
  unfold trim
  rw [List.append_assoc, trimStart_spaces_append l _ hl]
  by_cases hu : trimStart u = []
  · have hall : ∀ c ∈ u ++ r, isSpace c = true := by
      intro c hc
      rcases List.mem_append.mp hc with hc | hc
      · exact trimStart_eq_nil u hu c hc
      · exact hr c hc
    have h1 : trimStart (u ++ r) = [] := by
      have := trimStart_spaces_append (u ++ r) [] hall
      simpa [trimStart] using this
    rw [h1, hu]
  · rw [trimStart_append_of_ne_nil u r hu, List.reverse_append,
      trimStart_spaces_append r.reverse _ (fun c hc => hr c (List.mem_reverse.mp hc))]

/-- White space around a text does not change the normalized text. -/
theorem normalize_padded (l u r : JsString) (hl : ∀ c ∈ l, isSpace c = true)
    (hr : ∀ c ∈ r, isSpace c = true) : normalize (l ++ u ++ r) = normalize u := by
  unfold normalize
  rw [toLowerCase_append, toLowerCase_append, toLowerCase_spaces l hl, toLowerCase_spaces r hr]
  exact trim_padded l _ r hl hr

/-- The spec's trimming splits a text into leading white space, the trimmed text and
trailing white space. -/
theorem trimmed_split (s : JsString) :
    ∃ l r, (∀ c ∈ l, isSpace c = true) ∧ (∀ c ∈ r, isSpace c = true) ∧
      s = l ++ trimmed s ++ r := by
  refine ⟨s.takeWhile isSpace, ((s.dropWhile isSpace).reverse.takeWhile isSpace).reverse,
    fun c hc => (List.mem_takeWhile_imp hc), ?_, ?_⟩
  · intro c hc
    exact List.mem_takeWhile_imp (List.mem_reverse.mp hc)
  · unfold trimmed
    have h1 := List.takeWhile_append_dropWhile isSpace (s.dropWhile isSpace).reverse
    have h2 := congrArg List.reverse h1
    rw [List.reverse_append, List.reverse_reverse] at h2
    rw [List.append_assoc, h2, List.takeWhile_append_dropWhile]

/-- The outcome of `parseNaturalQuery` on a string only depends on the normalized text. -/
theorem parseNaturalQuery_congr (a b : JsString) (h : normalize a = normalize b) :
    parseNaturalQuery (.str a) = parseNaturalQuery (.str b) := by
  have key : ∀ p : JsString, parseNaturalQuery (.str p) =
      if validCharRe.test (normalize p) = true then
        match accumulate (normalize p) with
        | .error e => .error e
        | .ok f =>
          match validate f with
          | .error e => .error e
          | .ok g => .ok ⟨g⟩
      else .error .unparseable := by
    intro p
    by_cases hp : p = []
    · subst hp
      have : normalize [] = [] := by decide
      simp [parseNaturalQuery, this, validCharRe_test_nil]
    · by_cases hv : validCharRe.test (normalize p) = true
      · simp [parseNaturalQuery, hp, hv]
      · simp [parseNaturalQuery, hp, hv]
  rw [key a, key b, h]

/-- The arithmetic of doubles at large numerals: `parseInt` rounds `2 ^ 53 + 1` to `2 ^ 53`,
the sum `2 ^ 53 + 1` is `2 ^ 53` again, a numeral of 310 digits is `Infinity`, and an upper
bound that ends as `Infinity` is not stored. -/
theorem double_examples :
    extractNumber (some (js "9007199254740993")) = some (.num 9007199254740992) ∧
      parse "longer than 9007199254740992" =
        .ok ⟨⟨none, none, some (.num 9007199254740992), none, none⟩⟩ ∧
      parse "between 9007199254740992 and 9007199254740993" = .error .conflicting ∧
      extractNumber (some (List.replicate 310 57)) = some .inf ∧
      storeBounds Filters.empty
          (some (.num 3), atMostLoop [⟨[(1, js "0")]⟩, ⟨[(1, List.replicate 310 57)]⟩]
            (some (.num 10))) =
        ⟨none, none, some (.num 3), none, none⟩ := by
  refine ⟨by decide, by decide, by decide, ?_, ?_⟩
  · set_option maxRecDepth 1000000 in decide
  · set_option maxRecDepth 1000000 in decide

/-- The lower-casing of the program on a text with capital letters of Latin-1. -/
theorem normalize_example : normalize (js "  ÉCOLE Ça ") = js "école ça" := by decide

/-! ### The storage filter -/

/-- The storage filter translates the filters faithfully when the bounds and the word count
that are present are truthy and `contains_character`, when present, is not empty. -/
theorem buildMongoFilter_of_truthy (pf : Filters)
    (hw : ∀ v, pf.word_count = some v → v.truthy = true)
    (hmin : ∀ v, pf.min_length = some v → v.truthy = true)
    (hmax : ∀ v, pf.max_length = some v → v.truthy = true)
    (hch : ∀ s, pf.contains_character = some s → s ≠ []) :
    buildMongoFilter pf =
      { is_palindrome := pf.is_palindrome
        word_count := pf.word_count
        length :=
          if pf.min_length = none ∧ pf.max_length = none then none
          else some { gte := pf.min_length, lte := pf.max_length }
        value := pf.contains_character.map escapeRegExp } := by
  obtain ⟨p, w, mn, mx, ch⟩ := pf
  simp only at hw hmin hmax hch
  unfold buildMongoFilter
  cases w <;> cases mn <;> cases mx <;> cases ch <;>
    simp_all [truthyVal, truthyStr]

/-! ## The claims -/

/-- C1: when `parseNaturalQuery` returns, the object `parsed_filters` is not empty: at least
one of the five keys `is_palindrome`, `word_count`, `min_length`, `max_length`,
`contains_character` is present (the object has no other key). -/
theorem C1_success_has_a_filter (q : JsInput) (r : ParseResult)
    (h : parseNaturalQuery q = .ok r) :
    r.parsed_filters ≠ Filters.empty ∧
      (r.parsed_filters.is_palindrome ≠ none ∨ r.parsed_filters.word_count ≠ none ∨
        r.parsed_filters.min_length ≠ none ∨ r.parsed_filters.max_length ≠ none ∨
        r.parsed_filters.contains_character ≠ none) := by
  obtain ⟨s, -, -, -, -, -, hv⟩ := parseNaturalQuery_ok h
  obtain ⟨-, hne, -⟩ := validate_ok hv
  refine ⟨hne, ?_⟩
  by_contra hall
  simp only [not_or, not_not] at hall
  apply hne
  obtain ⟨f⟩ := r
  obtain ⟨a, b, c, d, e⟩ := f
  simp only at hall
  obtain ⟨h1, h2, h3, h4, h5⟩ := hall
  subst h1 h2 h3 h4 h5
  rfl

/-- C1 on the query "two word string", whose result holds the key `word_count`. -/
theorem C1_success_has_a_filter_witness :
    (⟨none, some (.num 2), none, none, none⟩ : Filters) ≠ Filters.empty ∧
      ((none : Option Bool) ≠ none ∨ some (JsVal.num 2) ≠ none ∨
        (none : Option JsVal) ≠ none ∨ (none : Option JsVal) ≠ none ∨
        (none : Option JsString) ≠ none) :=
  C1_success_has_a_filter (.str (js "two word string"))
    ⟨⟨none, some (.num 2), none, none, none⟩⟩ (by decide)

/-- C2: the query "longer than constructor and shorter than 5" is parsed with success and
both bounds are present, but `min_length` is `NaN`, which is not `<= max_length`:
`extractNumber("constructor")` is the inherited property `numberWords["constructor"]`. -/
theorem C2_bounds_not_ordered :
    extractNumber (some (js "constructor")) = some .objectCtor ∧
      parse "longer than constructor and shorter than 5" =
        .ok ⟨⟨none, none, some .nan, some (.num 4), none⟩⟩ ∧
      jsLe .nan (.num 4) = false := by
  decide

/-- C3: in the query "shorter than 0" the only "shorter than" clause resolves to the number
`0`; the query is parsed with success and `max_length` is `-1`, a negative number. -/
theorem C3_max_length_negative :
    (shorterRe.matchAll (normalize (js "shorter than 0"))).map
        (fun m => extractNumber (m.get 1)) = [some (.num 0)] ∧
      parse "shorter than 0" = .ok ⟨⟨none, none, none, some (.num (-1)), none⟩⟩ := by
  decide

/-- C4: on a successful parse, `contains_character`, when present, is a string of exactly one
character, and that character is a lower-case letter `a`..`z` (codes 97 to 122), whether it
comes from the ordinal step or from the generic "contains" step. -/
theorem C4_contains_character_is_a_letter (q : JsInput) (r : ParseResult) (ch : JsString)
    (h : parseNaturalQuery q = .ok r)
    (hch : r.parsed_filters.contains_character = some ch) :
    ∃ c, ch = [c] ∧ 97 ≤ c ∧ c ≤ 122 := by
  obtain ⟨s, -, -, -, hc, -, -⟩ := parseNaturalQuery_ok h
  obtain ⟨b, -, -, -, -, -, f3, f4, h3, h4, hf⟩ := collect_ok hc
  have key : ∃ c, ch = [c] ∧ isLower c = true := by
    rcases containsStage_char (normalize s) f4 with h5 | ⟨ch', c, h5, hc'⟩
    · rcases ordinalStage_char h4 with h6 | ⟨ch', c, h6, hc'⟩
      · rw [hf, h5, h6, h3] at hch
        cases hch
      · rw [hf, h5, h6] at hch
        cases hch
        exact ⟨c, hc'⟩
    · rw [hf, h5] at hch
      cases hch
      exact ⟨c, hc'⟩
  obtain ⟨c, hc1, hc2⟩ := key
  refine ⟨c, hc1, ?_⟩
  simpa [isLower] using hc2

/-- C4 on the query "contains the letter z", whose result holds the letter `z`. -/
theorem C4_contains_character_is_a_letter_witness : ∃ c, js "z" = [c] ∧ 97 ≤ c ∧ c ≤ 122 :=
  C4_contains_character_is_a_letter (.str (js "contains the letter z"))
    ⟨⟨none, none, none, none, some (js "z")⟩⟩ (js "z") (by decide) rfl

/-- C5: when the normalized text matches the negative "contains" pattern, `parseNaturalQuery`
returns no filters; and when steps 1 to 5 complete without an error, it throws the
conflicting-filters error, of status 422, whatever those steps collected. -/
theorem C5_negative_contains_conflicts (q : JsString)
    (hneg : negContainsRe.test (normalize q) = true) :
    (∀ r, parseNaturalQuery (.str q) ≠ .ok r) ∧
      (∀ f, collect (normalize q) = .ok f →
        parseNaturalQuery (.str q) = .error .conflicting) ∧
      ParseError.conflicting.status = 422 := by
  refine ⟨?_, ?_, rfl⟩
  · intro r hr
    obtain ⟨s, hs, -, -, -, hn, -⟩ := parseNaturalQuery_ok hr
    cases hs
    rw [hneg] at hn
    cases hn
  · intro f hf
    obtain ⟨hv, hne⟩ := valid_of_test headIn_negContainsRe hneg
    rw [parseNaturalQuery_eq hne hv]
    simp [accumulate, hf, hneg]

/-- C5 on the query "longer than 5 and does not contain a", where the negative pattern
matches after a valid "longer than" clause. -/
theorem C5_negative_contains_conflicts_witness :
    (∀ r, parseNaturalQuery (.str (js "longer than 5 and does not contain a")) ≠ .ok r) ∧
      (∀ f, collect (normalize (js "longer than 5 and does not contain a")) = .ok f →
        parseNaturalQuery (.str (js "longer than 5 and does not contain a")) =
          .error .conflicting) ∧
      ParseError.conflicting.status = 422 :=
  C5_negative_contains_conflicts (js "longer than 5 and does not contain a") (by decide)

/-- C6: when the first match of the "between" pattern has both tokens resolved to numbers
`N >= M`, `parseNaturalQuery` throws the conflicting-filters error, of status 422, whatever
else the query contains. -/
theorem C6_between_reversed_conflicts (q : JsString) (m : Caps) (ms : List Caps) (N M : Int)
    (hm : betweenRe.matchAll (normalize q) = m :: ms)
    (hN : extractNumber (m.get 1) = some (.num N)) (hM : extractNumber (m.get 2) = some (.num M))
    (hge : N ≥ M) :
    parseNaturalQuery (.str q) = .error .conflicting ∧
      ParseError.conflicting.status = 422 := by
  refine ⟨?_, rfl⟩
  have hmem : m ∈ betweenRe.matchAll (normalize q) := by rw [hm]; exact List.mem_cons_self _ _
  obtain ⟨hv, hne⟩ := valid_of_matchAll headIn_betweenRe hmem
  rw [parseNaturalQuery_eq hne hv]
  have hge' : jsGe (.num N) (.num M) = true := by
    simp [jsGe, jsLt]; omega
  simp [accumulate, collect, lengthStage, lengthBounds, hm, betweenLoop, hN, hM, hge']

/-- C6 on the query "between 10 and 3", whose only match resolves to `10 >= 3`. -/
theorem C6_between_reversed_conflicts_witness :
    parseNaturalQuery (.str (js "between 10 and 3")) = .error .conflicting ∧
      ParseError.conflicting.status = 422 :=
  C6_between_reversed_conflicts (js "between 10 and 3")
    ⟨[(2, js "3"), (1, js "10")]⟩ []
    10 3 (by decide) (by decide) (by decide) (by decide)

/-- C7 (as amended): on a successful parse of a query whose last "between" or "from..to"
match resolves to the numbers `N` and `M`, these two numbers replace whatever the "longer
than" and "shorter than" clauses had accumulated, and `N < M`; the "at least" and "at most"
clauses are then folded into them (an upper bound that ends as `Infinity` is not reported),
so that `min_length = N` when no "at least" clause resolves and `max_length = M` when no
"at most" clause resolves. -/
theorem C7_between_overrides_comparatives (q : JsString) (r : ParseResult) (last : Caps)
    (N M : Int) (h : parseNaturalQuery (.str q) = .ok r)
    (hlast : (betweenRe.matchAll (normalize q)).getLast? = some last)
    (hN : extractNumber (last.get 1) = some (.num N))
    (hM : extractNumber (last.get 2) = some (.num M)) :
    N < M ∧
      r.parsed_filters.min_length =
        atLeastLoop (atLeastRe.matchAll (normalize q)) (some (.num N)) ∧
      r.parsed_filters.max_length =
        (if atMostLoop (atMostRe.matchAll (normalize q)) (some (.num M)) = some .inf then none
          else atMostLoop (atMostRe.matchAll (normalize q)) (some (.num M))) ∧
      ((∀ m ∈ atLeastRe.matchAll (normalize q), extractNumber (m.get 1) = none) →
        r.parsed_filters.min_length = some (.num N)) ∧
      ((∀ m ∈ atMostRe.matchAll (normalize q), extractNumber (m.get 1) = none) →
        r.parsed_filters.max_length = some (.num M)) := by
  obtain ⟨s, hs, -, -, hc, -, -⟩ := parseNaturalQuery_ok h
  cases hs
  obtain ⟨b, hb, -, -, hmin, hmax, -⟩ := collect_ok hc
  unfold lengthBounds at hb
  simp only at hb
  split at hb
  · cases hb
  · rename_i mn mx hbl
    cases hb
    obtain ⟨n, m, hn, hm, hge, hpair⟩ := betweenLoop_last _ _ _ _ hbl hlast
    rw [hN] at hn; rw [hM] at hm
    cases hn; cases hm
    cases hpair
    simp only at hmin hmax
    refine ⟨?_, hmin, hmax, ?_, ?_⟩
    · simp [jsGe, jsLt] at hge
      exact hge
    · intro hno
      rw [hmin, atLeastLoop_unresolved _ _ hno]
    · intro hno
      rw [hmax, atMostLoop_unresolved _ _ hno]
      simp

/-- C7 (as amended) on the query "longer than 20 and between 3 and 10": the bound 21 of the
"longer than" clause is replaced by the bounds 3 and 10. -/
theorem C7_between_overrides_comparatives_witness :
    (3 : Int) < 10 ∧
      (⟨none, none, some (.num 3), some (.num 10), none⟩ : Filters).min_length =
        atLeastLoop (atLeastRe.matchAll (normalize (js "longer than 20 and between 3 and 10")))
          (some (.num 3)) ∧
      (⟨none, none, some (.num 3), some (.num 10), none⟩ : Filters).max_length =
        (if atMostLoop (atMostRe.matchAll (normalize (js "longer than 20 and between 3 and 10")))
            (some (.num 10)) = some .inf then none
          else atMostLoop
            (atMostRe.matchAll (normalize (js "longer than 20 and between 3 and 10")))
            (some (.num 10))) ∧
      ((∀ m ∈ atLeastRe.matchAll (normalize (js "longer than 20 and between 3 and 10")),
          extractNumber (m.get 1) = none) →
        (⟨none, none, some (.num 3), some (.num 10), none⟩ : Filters).min_length =
          some (.num 3)) ∧
      ((∀ m ∈ atMostRe.matchAll (normalize (js "longer than 20 and between 3 and 10")),
          extractNumber (m.get 1) = none) →
        (⟨none, none, some (.num 3), some (.num 10), none⟩ : Filters).max_length =
          some (.num 10)) :=
  C7_between_overrides_comparatives (js "longer than 20 and between 3 and 10")
    ⟨⟨none, none, some (.num 3), some (.num 10), none⟩⟩ ⟨[(2, js "10"), (1, js "3")]⟩ 3 10
    (by decide) (by decide) (by decide) (by decide)

/-- C7, the claim as stated fails: in "between 3 and 10 and at least 5" the only "between"
match resolves to `3 < 10`, and the parse is successful with `min_length = 5`, not `3`: the
"at least" clause is folded into the bound after the override. -/
theorem C7_between_folded_with_at_least :
    (betweenRe.matchAll (normalize (js "between 3 and 10 and at least 5"))).map
        (fun m => (extractNumber (m.get 1), extractNumber (m.get 2))) =
        [(some (.num 3), some (.num 10))] ∧
      parse "between 3 and 10 and at least 5" =
        .ok ⟨⟨none, none, some (.num 5), some (.num 10), none⟩⟩ := by
  decide

/-- C8: the query "shorter than 1 and shorter than 5" has no "between" and no "at most"
match, and its two "shorter than" clauses resolve to 1 and 5, so that the most restrictive
bound is `0`; but the parser reports `max_length = 4` (the bound `0` is falsy in
`maxLength || Infinity`), and `0` when the two clauses are swapped. -/
theorem C8_zero_bound_forgotten :
    betweenRe.matchAll (js "shorter than 1 and shorter than 5") = [] ∧
      atMostRe.matchAll (js "shorter than 1 and shorter than 5") = [] ∧
      (shorterRe.matchAll (js "shorter than 1 and shorter than 5")).map
        (fun m => extractNumber (m.get 1)) = [some (.num 1), some (.num 5)] ∧
      parse "shorter than 1 and shorter than 5" =
        .ok ⟨⟨none, none, none, some (.num 4), none⟩⟩ ∧
      parse "shorter than 5 and shorter than 1" =
        .ok ⟨⟨none, none, none, some (.num 0), none⟩⟩ := by
  decide

/-- C9: on a successful parse, a negative palindrome cue in the normalized text gives
`is_palindrome = false`, also when an affirmative cue matches; and `is_palindrome` is `true`
exactly when an affirmative cue matches and no negative cue does. -/
theorem C9_negative_palindrome_wins (q : JsString) (r : ParseResult)
    (h : parseNaturalQuery (.str q) = .ok r) :
    (negPalindromeRe.test (normalize q) = true →
        r.parsed_filters.is_palindrome = some false) ∧
      (r.parsed_filters.is_palindrome = some true ↔
        posPalindromeRe.test (normalize q) = true ∧
          negPalindromeRe.test (normalize q) = false) := by
  obtain ⟨s, hs, -, -, hc, -, -⟩ := parseNaturalQuery_ok h
  cases hs
  obtain ⟨b, -, hp, -⟩ := collect_ok hc
  rw [hp, palindromeStage_is_palindrome]
  by_cases hn : negPalindromeRe.test (normalize q) = true <;>
    by_cases ha : posPalindromeRe.test (normalize q) = true <;> simp_all

/-- C9 on the query "palindrome but not a palindrome", where both cues match. -/
theorem C9_negative_palindrome_wins_witness :
    (negPalindromeRe.test (normalize (js "palindrome but not a palindrome")) = true →
        (⟨some false, none, none, none, none⟩ : Filters).is_palindrome = some false) ∧
      ((⟨some false, none, none, none, none⟩ : Filters).is_palindrome = some true ↔
        posPalindromeRe.test (normalize (js "palindrome but not a palindrome")) = true ∧
          negPalindromeRe.test (normalize (js "palindrome but not a palindrome")) = false) :=
  C9_negative_palindrome_wins (js "palindrome but not a palindrome")
    ⟨⟨some false, none, none, none, none⟩⟩ (by decide)

/-- C10 (as amended): the controller answers with the status 200 exactly when the request
parameter is a string whose trimmed text is parsed with success and the storage call
succeeds; `interpreted_query` then holds the filters returned by the parser together with
`original`, the request parameter after `trim` (this is the text given to the parser, before
its own normalization: the case of the letters is kept, surrounding white space is not). -/
theorem C10_echo_is_trimmed_query {Doc : Type}
    (find : MongoFilter → Except Thrown (List Doc)) (param : QueryParam) (data : List Doc)
    (count : Nat) (original : JsString) (pf : Filters) :
    getStringsNlp find param = .success data count original pf ↔
      ∃ raw, param = .str raw ∧ original = trim raw ∧
        parseNaturalQuery (.str (trim raw)) = .ok ⟨pf⟩ ∧
        find (buildMongoFilter pf) = .ok data ∧ count = data.length := by
  constructor
  · intro h
    unfold getStringsNlp at h
    split at h
    · cases h
    · exact absurd h (onError_ne_success _ _ _ _ _)
    · rename_i raw
      simp only at h
      split at h
      · cases h
      · split at h
        · exact absurd h (onError_ne_success _ _ _ _ _)
        · rename_i result hres
          split at h
          · cases h
          · split at h
            · exact absurd h (onError_ne_success _ _ _ _ _)
            · rename_i d hd
              cases h
              exact ⟨raw, rfl, rfl, hres, hd, rfl⟩
  · rintro ⟨raw, rfl, rfl, hp, hf, rfl⟩
    obtain ⟨s, hs, hne, -⟩ := parseNaturalQuery_ok hp
    cases hs
    have hchk := controller_check_false hp
    simp only at hchk
    simp [getStringsNlp, hne, hp, hchk, hf]

/-- C10, the claim as stated fails: for the request parameter "  Palindrome " the parse
succeeds and the response echoes "Palindrome", which is not the text that was sent; and the
value returned by `parseNaturalQuery` itself holds the filters only. -/
theorem C10_echo_differs_from_request :
    getStringsNlp (fun _ => (.ok [] : Except Thrown (List Unit))) (.str (js "  Palindrome ")) =
        .success [] 0 (js "Palindrome") ⟨some true, none, none, none, none⟩ ∧
      js "Palindrome" ≠ js "  Palindrome " ∧
      parseNaturalQuery (.str (js "Palindrome")) =
        .ok ⟨⟨some true, none, none, none, none⟩⟩ := by
  decide

/-- C11: `parseNaturalQuery` throws the unparseable error, of status 400, on an argument that
is not a string, on the empty string, and on a string whose normalized text has no character
of `[a-z0-9\s]`; and also on a query for which steps 1 to 5 complete and leave the object
`filters` empty while the negative "contains" pattern does not match. -/
theorem C11_unparseable_inputs (q : JsString) :
    parseNaturalQuery .other = .error .unparseable ∧
      parseNaturalQuery (.str []) = .error .unparseable ∧
      ((∀ c ∈ normalize q, (isLower c || isDigit c || isSpace c) = false) →
        parseNaturalQuery (.str q) = .error .unparseable) ∧
      (collect (normalize q) = .ok Filters.empty →
        negContainsRe.test (normalize q) = false →
        parseNaturalQuery (.str q) = .error .unparseable) ∧
      ParseError.unparseable.status = 400 := by
  refine ⟨rfl, rfl, ?_, ?_, rfl⟩
  · intro h
    have hv := validCharRe_test_false _ h
    unfold parseNaturalQuery
    by_cases hq : q = []
    · simp [hq]
    · simp [hq, hv]
  · intro hc hn
    unfold parseNaturalQuery
    by_cases hq : q = []
    · simp [hq]
    · by_cases hv : validCharRe.test (normalize q) = true
      · simp [hq, hv, accumulate, hc, hn, validate]
      · simp [hq, hv]

/-- C11 on the queries "!!!" (no character of the class) and "123!!!" (no filter). -/
theorem C11_unparseable_inputs_witness :
    parseNaturalQuery (.str (js "!!!")) = .error .unparseable ∧
      parseNaturalQuery (.str (js "123!!!")) = .error .unparseable :=
  ⟨(C11_unparseable_inputs (js "!!!")).2.2.1 (by decide),
    (C11_unparseable_inputs (js "123!!!")).2.2.2.1 (by decide) (by decide)⟩

/-- C12: for every argument, `parseNaturalQuery` either returns an object with the key
`parsed_filters` or throws an error whose status is 400 or 422.  The two places of the source
where another outcome could arise are excluded: every match of `ordinalRe` defines the groups
`ord` and `kind` (so `ord.toLowerCase()` is never called on `undefined`) and consumes input
(so the `exec` loop ends). -/
theorem C12_two_outcomes (query : JsInput) :
    ((∃ r, parseNaturalQuery query = .ok r) ∨
        (∃ e, parseNaturalQuery query = .error e ∧ (e.status = 400 ∨ e.status = 422))) ∧
      (∀ text m, m ∈ ordinalRe.matchAll text →
        ∃ ord kind, m.get 1 = some ord ∧ m.get 2 = some kind) ∧
      (∀ prev text st, matchAt ordinalRe prev text = some st →
        st.rest.length < text.length) := by
  refine ⟨?_, ordinalRe_groups, ?_⟩
  · cases h : parseNaturalQuery query with
    | ok r => exact Or.inl ⟨r, rfl⟩
    | error e =>
      refine Or.inr ⟨e, rfl, ?_⟩
      cases e
      · exact Or.inl rfl
      · exact Or.inr rfl
  · intro prev text st h
    exact (ordinalRe_reach (matchAt_reach h)).2.2

/-- C13: when the last match of `ordinalRe` has the scope `alphabet`, the ordinal `ord` and
the kind `letter`, `vowel` or `consonant`, with table `alphabet` (26 entries, the `i`-th
being the letter of code `97 + i`), `vowels` (5) or `consonants` (21): if `ord` resolves to a
number `k` with `1 <= k <= table.length`, the ordinal step sets `contains_character` to
`table[k - 1]`, which a successful parse reports; otherwise the step throws the unparseable
error, of status 400, and so does `parseNaturalQuery` when the length step has not thrown. -/
theorem C13_alphabet_scope (q : JsString) (last : Caps) (ord kind : JsString)
    (table : List JsString)
    (hlast : (ordinalRe.matchAll (normalize q)).getLast? = some last)
    (hord : last.get 1 = some ord) (hkind : last.get 2 = some kind)
    (hscope : last.get 3 = some (js "alphabet"))
    (htable : (kind = js "letter" ∧ table = alphabet) ∨
      (kind = js "vowel" ∧ table = vowels) ∨ (kind = js "consonant" ∧ table = consonants)) :
    (alphabet.length = 26 ∧ vowels.length = 5 ∧ consonants.length = 21 ∧
        ∀ i, i < 26 → alphabet.get? i = some [97 + i]) ∧
      (∀ k : Int, ordinalNumber ord = some (.num k) → 1 ≤ k → k ≤ table.length →
        ∃ ch, table.get? (k - 1).toNat = some ch ∧
          (∀ f, ordinalStage (normalize q) f = .ok { f with contains_character := some ch }) ∧
          (∀ r, parseNaturalQuery (.str q) = .ok r →
            r.parsed_filters.contains_character = some ch)) ∧
      ((¬ ∃ k : Int, ordinalNumber ord = some (.num k) ∧ 1 ≤ k ∧ k ≤ table.length) →
        (∀ f, ordinalStage (normalize q) f = .error .unparseable) ∧
          ((∃ b, lengthBounds (normalize q) = .ok b) →
            parseNaturalQuery (.str q) = .error .unparseable)) ∧
      ParseError.unparseable.status = 400 := by
  have hres : ∀ f, ordinalStage (normalize q) f =
      match tableAt table (ordinalNumber ord) with
      | some ch => .ok { f with contains_character := some ch }
      | none => .error .unparseable := by
    intro f
    rw [ordinalStage_eq hlast hord hkind f]
    unfold ordinalResolve
    rcases htable with ⟨hk, ht⟩ | ⟨hk, ht⟩ | ⟨hk, ht⟩
    · subst hk ht
      simp [hscope]
    · subst hk ht
      have : ¬ (js "vowel" = js "letter") := by decide
      simp [hscope, this]
    · subst hk ht
      have h1 : ¬ (js "consonant" = js "letter") := by decide
      have h2 : ¬ (js "consonant" = js "vowel") := by decide
      simp [hscope, h1, h2]
  have hmem : table ∈ [alphabet, vowels, consonants] := by
    rcases htable with ⟨-, ht⟩ | ⟨-, ht⟩ | ⟨-, ht⟩ <;> simp [ht]
  refine ⟨by decide, ?_, ?_, rfl⟩
  · intro k hk h1 h2
    obtain ⟨ch, hget, hat⟩ := tableAt_in_range table k h1 h2
    have hst : ∀ f, ordinalStage (normalize q) f =
        .ok { f with contains_character := some ch } := by
      intro f
      rw [hres f, hk, hat]
    refine ⟨ch, hget, hst, ?_⟩
    intro r hr
    obtain ⟨f3, f4, -, h4, hc⟩ := parse_contains hr
    rw [hst f3] at h4
    cases h4
    rw [hc, containsStage_set _ _ ch rfl (tableAt_ne_nil hmem hat)]
  · intro hout
    have hat := tableAt_out_of_range table (ordinalNumber ord) hout
    have hst : ∀ f, ordinalStage (normalize q) f = .error .unparseable := by
      intro f
      rw [hres f, hat]
    refine ⟨hst, ?_⟩
    rintro ⟨b, hb⟩
    obtain ⟨hv, hne⟩ := valid_of_ordinal_match (List.mem_of_getLast?_eq_some hlast)
    rw [parseNaturalQuery_eq hne hv]
    simp [accumulate, collect, lengthStage, hb, hst]

/-- C13 on the query "third letter of the alphabet", which gives the letter `c`. -/
theorem C13_alphabet_scope_witness :
    ∃ ch, alphabet.get? ((3 : Int) - 1).toNat = some ch ∧
      (∀ f, ordinalStage (normalize (js "third letter of the alphabet")) f =
        .ok { f with contains_character := some ch }) ∧
      (∀ r, parseNaturalQuery (.str (js "third letter of the alphabet")) = .ok r →
        r.parsed_filters.contains_character = some ch) :=
  (C13_alphabet_scope (js "third letter of the alphabet")
    ⟨[(3, js "alphabet"), (2, js "letter"), (1, js "third")]⟩ (js "third") (js "letter")
    alphabet (by decide) (by decide) (by decide) (by decide)
    (Or.inl ⟨rfl, rfl⟩)).2.1 3 (by decide) (by decide) (by decide)

/-- C14: for a query without a "between" match whose "longer than" clauses resolve to the
numbers `Ns` and whose "at least" clauses resolve to the numbers `Ms`, one of the two lists
not being empty, the length step accumulates as `minLength` the greatest of the numbers
`N + 1` and `M`, which a successful parse reports as `min_length`; and when no "shorter than"
and no "at most" clause resolves, `maxLength` stays `undefined` and the result has no key
`max_length`.  The sum `N + 1` is the one that the program computes, a double (`toDouble`);
for numbers `N` below `2 ^ 53` it is the integer `N + 1`, and `min_length` is the greatest of
the integers `N + 1` and `M`. -/
theorem C14_lower_bound_is_maximum (q : JsString) (Ns Ms : List Int)
    (hb : betweenRe.matchAll (normalize q) = [])
    (hN : (longerRe.matchAll (normalize q)).filterMap (fun m => extractNumber (m.get 1)) =
      Ns.map JsVal.num)
    (hM : (atLeastRe.matchAll (normalize q)).filterMap (fun m => extractNumber (m.get 1)) =
      Ms.map JsVal.num)
    (hne : Ns ≠ [] ∨ Ms ≠ []) :
    ∃ v mx, lengthBounds (normalize q) = .ok (some v, mx) ∧
      v ∈ Ns.map (fun n => toDouble (n + 1)) ++ Ms.map JsVal.num ∧
      (∀ x ∈ Ns.map (fun n => toDouble (n + 1)) ++ Ms.map JsVal.num, jsLe x v = true) ∧
      ((∀ n ∈ Ns, n < 2 ^ 53) →
        ∃ k, v = .num k ∧ k ∈ Ns.map (· + 1) ++ Ms ∧ ∀ x ∈ Ns.map (· + 1) ++ Ms, x ≤ k) ∧
      (∀ r, parseNaturalQuery (.str q) = .ok r → r.parsed_filters.min_length = some v) ∧
      ((∀ m ∈ shorterRe.matchAll (normalize q), extractNumber (m.get 1) = none) →
        (∀ m ∈ atMostRe.matchAll (normalize q), extractNumber (m.get 1) = none) →
        mx = none ∧
          ∀ r, parseNaturalQuery (.str q) = .ok r → r.parsed_filters.max_length = none) := by
  have hNs := resolved_nonneg _ Ns (longerRe_group (normalize q)) hN
  have hMs := resolved_nonneg _ Ms (atLeastRe_group (normalize q)) hM
  have hL := lowerBounds_nonneg Ns Ms hNs hMs
  have hLne : Ns.map (fun n => toDouble (n + 1)) ++ Ms.map JsVal.num ≠ [] := by
    rcases hne with h | h
    · cases Ns with
      | nil => exact absurd rfl h
      | cons n ns => simp
    · cases Ms with
      | nil => exact absurd rfl h
      | cons n ns => simp
  obtain ⟨v, hv, hmem, hmax⟩ := maxFold_none _ hL hLne
  have hlb : lengthBounds (normalize q) =
      .ok (some v, atMostLoop (atMostRe.matchAll (normalize q))
        (shorterLoop (shorterRe.matchAll (normalize q)) none)) := by
    unfold lengthBounds
    simp only [hb, betweenLoop]
    rw [lowerBound_eq (normalize q) Ns Ms hN hM, hv]
  refine ⟨v, _, hlb, hmem, hmax, ?_, ?_, ?_⟩
  · intro hsafe
    rw [lowerBounds_exact Ns Ms hNs hsafe] at hmem hmax
    obtain ⟨k, hk, rfl⟩ := List.mem_map.mp hmem
    refine ⟨k, rfl, hk, ?_⟩
    intro x hx
    have := hmax _ (List.mem_map_of_mem _ hx)
    simpa [jsLe, jsLt] using this
  · intro r hr
    obtain ⟨s, hs, -, -, hc, -, -⟩ := parseNaturalQuery_ok hr
    cases hs
    obtain ⟨b, hb', -, -, hmin, -⟩ := collect_ok hc
    rw [hlb] at hb'
    cases hb'
    exact hmin
  · intro hs ha
    have hmx : atMostLoop (atMostRe.matchAll (normalize q))
        (shorterLoop (shorterRe.matchAll (normalize q)) none) = none := by
      rw [shorterLoop_unresolved _ _ hs, atMostLoop_unresolved _ _ ha]
    refine ⟨hmx, ?_⟩
    intro r hr
    obtain ⟨s, hs', -, -, hc, -, -⟩ := parseNaturalQuery_ok hr
    cases hs'
    obtain ⟨b, hb', -, -, -, hmax', -⟩ := collect_ok hc
    rw [hlb] at hb'
    cases hb'
    rw [hmax']
    simp [hmx]

/-- C14 on the query "longer than 5", which gives `min_length = 6` and no `max_length`. -/
theorem C14_lower_bound_is_maximum_witness :
    parse "longer than 5" = .ok ⟨⟨none, none, some (.num 6), none, none⟩⟩ ∧
      ∃ v mx, lengthBounds (normalize (js "longer than 5")) = .ok (some v, mx) ∧
        v ∈ [(5 : Int)].map (fun n => toDouble (n + 1)) ++ ([] : List Int).map JsVal.num ∧
        (∀ x ∈ [(5 : Int)].map (fun n => toDouble (n + 1)) ++ ([] : List Int).map JsVal.num,
          jsLe x v = true) ∧
        ((∀ n ∈ [(5 : Int)], n < 2 ^ 53) →
          ∃ k, v = .num k ∧ k ∈ [(5 : Int)].map (· + 1) ++ [] ∧
            ∀ x ∈ [(5 : Int)].map (· + 1) ++ [], x ≤ k) ∧
        (∀ r, parseNaturalQuery (.str (js "longer than 5")) = .ok r →
          r.parsed_filters.min_length = some v) ∧
        ((∀ m ∈ shorterRe.matchAll (normalize (js "longer than 5")),
            extractNumber (m.get 1) = none) →
          (∀ m ∈ atMostRe.matchAll (normalize (js "longer than 5")),
            extractNumber (m.get 1) = none) →
          mx = none ∧
            ∀ r, parseNaturalQuery (.str (js "longer than 5")) = .ok r →
              r.parsed_filters.max_length = none) :=
  ⟨by decide,
    C14_lower_bound_is_maximum (js "longer than 5") [5] [] (by decide) (by decide) (by decide)
      (Or.inl (by decide))⟩

/-- C15: when the first match of the "between" pattern has a token that `extractNumber` does
not resolve, `parseNaturalQuery` throws the unparseable error, of status 400, whatever else
the query contains. -/
theorem C15_between_unresolved_unparseable (q : JsString) (m : Caps) (ms : List Caps)
    (hm : betweenRe.matchAll (normalize q) = m :: ms)
    (hno : extractNumber (m.get 1) = none ∨ extractNumber (m.get 2) = none) :
    parseNaturalQuery (.str q) = .error .unparseable ∧
      ParseError.unparseable.status = 400 := by
  refine ⟨?_, rfl⟩
  have hmem : m ∈ betweenRe.matchAll (normalize q) := by rw [hm]; exact List.mem_cons_self _ _
  obtain ⟨hv, hne⟩ := valid_of_matchAll headIn_betweenRe hmem
  rw [parseNaturalQuery_eq hne hv]
  have hb : ∀ acc, betweenLoop (m :: ms) acc = .error .unparseable := by
    intro acc
    unfold betweenLoop
    rcases hno with h | h
    · simp [h]
    · cases h1 : extractNumber (m.get 1) <;> simp [h]
  simp [accumulate, collect, lengthStage, lengthBounds, hm, hb]

/-- C15 on the query "longer than 5 and between x and 9": the token `x` is not resolved,
although the "longer than" clause is valid. -/
theorem C15_between_unresolved_unparseable_witness :
    parseNaturalQuery (.str (js "longer than 5 and between x and 9")) = .error .unparseable ∧
      ParseError.unparseable.status = 400 :=
  C15_between_unresolved_unparseable (js "longer than 5 and between x and 9")
    ⟨[(2, js "9"), (1, js "x")]⟩ [] (by decide) (Or.inl (by decide))

/-- C16: when the last match of `ordinalRe` has the kind `vowel` or `consonant`, no scope or
the scope `word`, and an ordinal that does not resolve to a number within the range of the
table, the ordinal step throws nothing and leaves the object `filters` as it is; steps 1 to 5
then give what they give without the ordinal step. -/
theorem C16_out_of_range_ignored (q : JsString) (last : Caps) (ord kind : JsString)
    (table : List JsString)
    (hlast : (ordinalRe.matchAll (normalize q)).getLast? = some last)
    (hord : last.get 1 = some ord) (hkind : last.get 2 = some kind)
    (hscope : last.get 3 = none ∨ last.get 3 = some (js "word"))
    (htable : (kind = js "vowel" ∧ table = vowels) ∨
      (kind = js "consonant" ∧ table = consonants))
    (hout : ¬ ∃ k : Int, ordinalNumber ord = some (.num k) ∧ 1 ≤ k ∧ k ≤ table.length) :
    vowels.length = 5 ∧ consonants.length = 21 ∧
      (∀ f, ordinalStage (normalize q) f = .ok f) ∧
      collect (normalize q) =
        match lengthStage (normalize q)
          (wordCountStage (normalize q) (palindromeStage (normalize q) Filters.empty)) with
        | .error e => .error e
        | .ok f3 => .ok (containsStage (normalize q) f3) := by
  have hat := tableAt_out_of_range table (ordinalNumber ord) hout
  have hs : last.get 3 ≠ some (js "alphabet") := by
    rcases hscope with h | h <;> rw [h]
    · simp
    · decide
  have hst : ∀ f, ordinalStage (normalize q) f = .ok f := by
    intro f
    rw [ordinalStage_eq hlast hord hkind f]
    unfold ordinalResolve
    rcases htable with ⟨hk, ht⟩ | ⟨hk, ht⟩
    · subst hk ht
      have : ¬ (js "vowel" = js "letter") := by decide
      simp [hs, this, hat]
    · subst hk ht
      have h1 : ¬ (js "consonant" = js "letter") := by decide
      have h2 : ¬ (js "consonant" = js "vowel") := by decide
      simp [hs, h1, h2, hat]
  refine ⟨by decide, by decide, hst, ?_⟩
  unfold collect
  simp only
  cases lengthStage (normalize q)
      (wordCountStage (normalize q) (palindromeStage (normalize q) Filters.empty)) with
  | error e => rfl
  | ok f3 => simp [hst f3]

/-- C16 on the query "longer than 5 with the 9th vowel": there is no ninth vowel, and the
phrase is ignored. -/
theorem C16_out_of_range_ignored_witness :
    vowels.length = 5 ∧ consonants.length = 21 ∧
      (∀ f, ordinalStage (normalize (js "longer than 5 with the 9th vowel")) f = .ok f) ∧
      collect (normalize (js "longer than 5 with the 9th vowel")) =
        match lengthStage (normalize (js "longer than 5 with the 9th vowel"))
          (wordCountStage (normalize (js "longer than 5 with the 9th vowel"))
            (palindromeStage (normalize (js "longer than 5 with the 9th vowel"))
              Filters.empty)) with
        | .error e => .error e
        | .ok f3 => .ok (containsStage (normalize (js "longer than 5 with the 9th vowel")) f3) :=
  C16_out_of_range_ignored (js "longer than 5 with the 9th vowel")
    ⟨[(2, js "vowel"), (1, js "9")]⟩ (js "9") (js "vowel") vowels
    (by decide) (by decide) (by decide) (Or.inl (by decide)) (Or.inl ⟨rfl, rfl⟩)
    (by
      rintro ⟨k, hk, -, h2⟩
      have h9 : ordinalNumber (js "9") = some (.num 9) := by decide
      rw [h9] at hk
      cases hk
      revert h2
      decide)

/-- C17: on a successful parse, when the ordinal step, run on an object without
`contains_character`, sets the key, the result reports that value, whatever the generic
"contains" phrases of the text; when the ordinal step leaves the key unset, the result
reports group 1 of the last match of the generic pattern, if there is one. -/
theorem C17_ordinal_before_generic (q : JsString) (r : ParseResult) (f g : Filters)
    (h : parseNaturalQuery (.str q) = .ok r)
    (hstage : ordinalStage (normalize q) f = .ok g) (hf : f.contains_character = none) :
    (∀ ch, g.contains_character = some ch →
        r.parsed_filters.contains_character = some ch) ∧
      (g.contains_character = none →
        r.parsed_filters.contains_character =
          match (containsRe.matchAll (normalize q)).getLast? with
          | some last => last.get 1
          | none => none) := by
  obtain ⟨f3, f4, h3, h4, hc⟩ := parse_contains h
  rcases ordinalStage_trichotomy (normalize q) with ht | ht | ⟨c, hcne, ht⟩
  · rw [ht f] at hstage
    cases hstage
  · rw [ht f] at hstage
    rw [ht f3] at h4
    cases hstage
    cases h4
    refine ⟨?_, ?_⟩
    · intro ch hch
      rw [hf] at hch
      cases hch
    · intro _
      rw [hc, containsStage_unset _ _ h3]
  · rw [ht f] at hstage
    rw [ht f3] at h4
    cases hstage
    cases h4
    refine ⟨?_, ?_⟩
    · intro ch hch
      simp only [Option.some.injEq] at hch
      subst hch
      rw [hc, containsStage_set _ _ c rfl hcne]
    · intro hn
      simp at hn

/-- C17 on the query "contains the letter z and the first vowel": the ordinal step gives
`a`, which wins over the generic phrase with `z`. -/
theorem C17_ordinal_before_generic_witness :
    (∀ ch, (⟨none, none, none, none, some (js "a")⟩ : Filters).contains_character = some ch →
        (⟨none, none, none, none, some (js "a")⟩ : Filters).contains_character = some ch) ∧
      ((⟨none, none, none, none, some (js "a")⟩ : Filters).contains_character = none →
        (⟨none, none, none, none, some (js "a")⟩ : Filters).contains_character =
          match (containsRe.matchAll
            (normalize (js "contains the letter z and the first vowel"))).getLast? with
          | some last => last.get 1
          | none => none) :=
  C17_ordinal_before_generic (js "contains the letter z and the first vowel")
    ⟨⟨none, none, none, none, some (js "a")⟩⟩ Filters.empty
    ⟨none, none, none, none, some (js "a")⟩ (by decide) (by decide) rfl

/-- C18: on a successful parse, `word_count`, when present, is the value in `numberWords` of
the number word in group 1 of the first (leftmost) match of the word-count pattern, a number
from 1 to 10. -/
theorem C18_word_count_first_match (q : JsString) (r : ParseResult) (v : JsVal)
    (h : parseNaturalQuery (.str q) = .ok r) (hv : r.parsed_filters.word_count = some v) :
    ∃ m w n, wordCountRe.firstMatch (normalize q) = some m ∧ m.get 1 = some (js w) ∧
      w ∈ countWords ∧ numberWords.lookup (js w) = some n ∧ v = .num n ∧ 1 ≤ n ∧ n ≤ 10 := by
  obtain ⟨s, hs, -, -, hc, -, -⟩ := parseNaturalQuery_ok h
  cases hs
  obtain ⟨b, -, -, hw, -⟩ := collect_ok hc
  rw [hw] at hv
  have hp := (palindromeStage_others (normalize q) Filters.empty).1
  obtain ⟨m, w, hm, hg, hx⟩ := wordCountStage_word_count _ _ v (by rw [hp]; rfl) hv
  unfold Re.firstMatch at hm
  cases he : execFrom wordCountRe none (normalize q) with
  | none => rw [he] at hm; cases hm
  | some st =>
    rw [he] at hm
    simp only [Option.map_some', Option.some.injEq] at hm
    obtain ⟨p, pre, suf, -, hst⟩ := execFrom_some he
    obtain ⟨w', hw', hget⟩ := wordCountRe_group (matchAt_reach hst)
    rw [hm, hg] at hget
    cases hget
    obtain ⟨n, hn, hl, hex⟩ := countWords_values w' hw'
    rw [hex] at hx
    cases hx
    refine ⟨m, w', n, ?_, hg, hw', hl, rfl, ?_⟩
    · simp [Re.firstMatch, he, hm]
    · have hrange : ∀ x ∈ [1, 2, 3, 4, 5, 6, 7, 8, 9, (10 : Int)], 1 ≤ x ∧ x ≤ 10 := by
        decide
      exact hrange n hn

/-- C18 on the query "two words or three words": the first match gives `word_count = 2`. -/
theorem C18_word_count_first_match_witness :
    ∃ m w n, wordCountRe.firstMatch (normalize (js "two words or three words")) = some m ∧
      m.get 1 = some (js w) ∧ w ∈ countWords ∧ numberWords.lookup (js w) = some n ∧
      JsVal.num 2 = .num n ∧ 1 ≤ n ∧ n ≤ 10 :=
  C18_word_count_first_match (js "two words or three words")
    ⟨⟨none, some (.num 2), none, none, none⟩⟩ (.num 2) (by decide) rfl

/-- C19: the query "shorter than 1" is parsed into `{ max_length: 0 }` and the query
"at least 0" into `{ min_length: 0 }`; in both cases the storage filter built by
`getStringsNlp` has no condition on `properties.length` (it is empty), because the bound `0`
is falsy.  The storage call is here one that returns the filter it receives. -/
theorem C19_zero_bound_not_translated :
    parse "shorter than 1" = .ok ⟨⟨none, none, none, some (.num 0), none⟩⟩ ∧
      buildMongoFilter ⟨none, none, none, some (.num 0), none⟩ = ⟨none, none, none, none⟩ ∧
      getStringsNlp (fun mf => (.ok [mf] : Except Thrown (List MongoFilter)))
          (.str (js "shorter than 1")) =
        .success [⟨none, none, none, none⟩] 1 (js "shorter than 1")
          ⟨none, none, none, some (.num 0), none⟩ ∧
      getStringsNlp (fun mf => (.ok [mf] : Except Thrown (List MongoFilter)))
          (.str (js "at least 0")) =
        .success [⟨none, none, none, none⟩] 1 (js "at least 0")
          ⟨none, none, some (.num 0), none, none⟩ := by
  decide

/-- C20: `parseNaturalQuery` gives the same outcome (the same filters or the same error) on a
string `q` and on its normalized text, which is `q` in lower case and trimmed; and it is
insensitive to letter case and to surrounding white space: two strings that are the same in
lower case, each with any white space added at its two ends, give the same outcome. -/
theorem C20_normalization_invariant (q : JsString) :
    parseNaturalQuery (.str (normalize q)) = parseNaturalQuery (.str q) ∧
      parseNaturalQuery (.str (trimmed (lowercased q))) = parseNaturalQuery (.str q) ∧
      ∀ q' l r l' r' : JsString, lowercased q' = lowercased q →
        (∀ c ∈ l ++ r ++ l' ++ r', isSpace c = true) →
        parseNaturalQuery (.str (l' ++ q' ++ r')) = parseNaturalQuery (.str (l ++ q ++ r)) := by
  refine ⟨parseNaturalQuery_congr _ _ (normalize_idem q), ?_, ?_⟩
  · apply parseNaturalQuery_congr
    obtain ⟨l, r, hl, hr, hs⟩ := trimmed_split (lowercased q)
    rw [← normalize_padded l (trimmed (lowercased q)) r hl hr, ← hs]
    unfold normalize
    rw [toLowerCase_lowercased]
  · intro q' l r l' r' hq' hsp
    have hl : ∀ c ∈ l, isSpace c = true := fun c hc => hsp c (by simp [hc])
    have hr : ∀ c ∈ r, isSpace c = true := fun c hc => hsp c (by simp [hc])
    have hl' : ∀ c ∈ l', isSpace c = true := fun c hc => hsp c (by simp [hc])
    have hr' : ∀ c ∈ r', isSpace c = true := fun c hc => hsp c (by simp [hc])
    apply parseNaturalQuery_congr
    rw [normalize_padded l' q' r' hl' hr', normalize_padded l q r hl hr]
    unfold normalize
    rw [← toLowerCase_lowercased q', hq', toLowerCase_lowercased]

/-- C20 on the string "  LONGER than 5 ": its outcome is `min_length = 6`, the outcome of
"longer than 5", which is the string in lower case and trimmed, and the outcome of
"Longer THAN 5" between a tabulation and a line feed. -/
theorem C20_normalization_invariant_witness :
    parse "  LONGER than 5 " = .ok ⟨⟨none, none, some (.num 6), none, none⟩⟩ ∧
      parseNaturalQuery (.str (js "longer than 5")) =
        parseNaturalQuery (.str (js "  LONGER than 5 ")) ∧
      parseNaturalQuery (.str (js "\t" ++ js "Longer THAN 5" ++ js "\n")) =
        parseNaturalQuery (.str (js "  " ++ js "LONGER than 5" ++ js " ")) :=
  ⟨by decide, (C20_normalization_invariant (js "  LONGER than 5 ")).2.1,
    (C20_normalization_invariant (js "LONGER than 5")).2.2 (js "Longer THAN 5")
      (js "  ") (js " ") (js "\t") (js "\n") (by decide) (by decide)⟩

/-- C21: for every entry `w -> n` of the table `numberWords`, `extractNumber` returns the
number `n` on the word `w`, on `n` written in decimal digits, and on these digits followed by
any of the suffixes `st`, `nd`, `rd`, `th`. -/
theorem C21_lexicon_equivalence :
    ∀ e ∈ numberWords,
      extractNumber (some e.1) = some (.num e.2) ∧
        extractNumber (some (decimal e.2.toNat)) = some (.num e.2) ∧
        ∀ suffix ∈ ordinalSuffixes,
          extractNumber (some (decimal e.2.toNat ++ js suffix)) = some (.num e.2) := by
  decide

/-- C21 on the entry `three -> 3`: "three", "3" and "3rd" all give 3. -/
theorem C21_lexicon_equivalence_witness :
    extractNumber (some (js "three")) = some (.num 3) ∧
      extractNumber (some (js "3")) = some (.num 3) ∧
      extractNumber (some (js "3rd")) = some (.num 3) :=
  have h := C21_lexicon_equivalence (js "three", 3) (by decide)
  ⟨h.1, h.2.1, h.2.2 "rd" (by decide)⟩

end StringAnalyzer
